import Mathlib

/-!
Verification development for the cp2k-input-tools repository.

The repository has two source files:
  * `cp2k_input_tools/preprocessor.py` — the `CP2KPreprocessor` class: macro
    variable resolution, `@IF`/`@ENDIF` conditional blocks, `@SET`, `@INCLUDE`,
    and the line-emitting iterator.
  * `cp2k_input/parser.py` — the `CP2KInputParser` class: the schema-driven
    tree parser (sections, keywords, the two lockstep stacks) plus a legacy
    copy of the preprocessing logic.

Lines are modelled as `List Char`.  Python's unbounded `while True` loops are
modelled with an explicit fuel parameter; a result of `none` means the loop did
not finish within the given fuel (and `∀ fuel, ... = none` models divergence).
Machine I/O (opening files) is modelled by an explicit association list from
path to file contents.  External collaborators that the spec declares out of
scope (the tokenizer, the keyword-value type converter, the multi-file line
iterator) are modelled from the spec where noted.
-/

/-- Python `str.isspace` characters relevant to `\s` in the used regexes and
to `str.strip`/`str.rstrip`: space, tab, newline, carriage return, vertical
tab, form feed. -/
def pyIsSpace (c : Char) : Bool :=
  c == ' ' || c == '\t' || c == '\n' || c == '\r' || c == '\x0b' || c == '\x0c'

/-- Python regex `\w` (ASCII range): letters, digits, underscore. -/
def isWordChar (c : Char) : Bool := c.isAlphanum || c == '_'

/-- Uppercasing of a line, modelling Python `str.upper` (ASCII behaviour). -/
def upperL (l : List Char) : List Char := l.map Char.toUpper

/-- Decides whether `pat` is a prefix of `l` (used to model substring search). -/
def leadsWith : List Char → List Char → Bool
  | [], _ => true
  | _ :: _, [] => false
  | p :: ps, c :: cs => p == c && leadsWith ps cs

/-- Index of the first occurrence of `pat` in `l`, modelling Python
`str.find` (which returns the first match). -/
def idxOfSub (pat : List Char) : List Char → Option Nat
  | [] => if leadsWith pat [] then some 0 else none
  | c :: cs => if leadsWith pat (c :: cs) then some 0 else (idxOfSub pat cs).map (· + 1)

/-- Python `line.find(pat, s)`: first occurrence of `pat` at index `≥ s`,
as an absolute index. -/
def findFrom (pat : List Char) (line : List Char) (s : Nat) : Option Nat :=
  (idxOfSub pat (line.drop s)).map (· + s)

/-- Python slice `l[a:b]`. -/
def sliceList (l : List Char) (a b : Nat) : List Char := (l.drop a).take (b - a)

/-- Python `l.split(pat, maxsplit=1)` when a separator occurs: the part before
the first occurrence and the part after it; `none` when `pat` does not occur. -/
def splitFirstSub (pat l : List Char) : Option (List Char × List Char) :=
  match idxOfSub pat l with
  | some i => some (l.take i, l.drop (i + pat.length))
  | none => none

/-- Python `str.rstrip()` (no argument): drop trailing whitespace. -/
def pyRstrip (l : List Char) : List Char := (l.reverse.dropWhile pyIsSpace).reverse

/-- Python `str.strip()` (no argument): drop whitespace on both ends. -/
def pyStripWs (l : List Char) : List Char := pyRstrip (l.dropWhile pyIsSpace)

/-- Python `str.strip("'\"")`: drop single/double quote characters on both
ends. -/
def pyStripQuotes (l : List Char) : List Char :=
  ((l.dropWhile (fun c => c == '\x27' || c == '"')).reverse.dropWhile
    (fun c => c == '\x27' || c == '"')).reverse

/-- Number of `$` characters in a line; the termination measure of the two
substitution loops. -/
def countDollar (l : List Char) : Nat := l.count '$'

/-- Case-insensitive prefix test against an uppercase pattern, modelling an
`re.IGNORECASE` literal. -/
def leadsWithUpper : List Char → List Char → Bool
  | [], _ => true
  | _ :: _, [] => false
  | p :: ps, c :: cs => c.toUpper == p && leadsWithUpper ps cs

/-- Diagnostic context, modelling the dict-like `Context` of the tokenizer
module: raw line text, primary column span, optional reference column and
reference line.  Fields that Python leaves unset are `none` / `[]`. -/
structure Ctx where
  line : List Char
  colnr : Option Nat
  refColnr : Option Nat
  refLine : Option (List Char)
deriving DecidableEq, Repr

/-- Builds a `Context(line=...)` with no column information. -/
def mkCtx (line : List Char) : Ctx := ⟨line, none, none, none⟩

/-- Error kinds raised by the preprocessor (`PreprocessorError` messages and
the delegated tokenizer/OS errors), one constructor per distinct raise site
message. -/
inductive ErrKind where
  | unterminatedVar
  | invalidVarName (key : List Char)
  | undefinedVarNoDefault (key : List Char)
  | undefinedVar (key : List Char)
  | endifWithoutIf
  | garbageAfterEndif
  | nestedIf
  | unknownDirective
  | includeArgCount
  | unterminatedQuote
  | ioError (path : List Char)
  | unclosedBlock
deriving DecidableEq, Repr

/-- A raised preprocessor error: message kind plus its context. -/
structure PErr where
  kind : ErrKind
  ctx : Ctx
deriving DecidableEq, Repr

/-- Shifts the column fields of an error by `off`, modelling
`exc.args[1]["colnr"] += match.start(...)`. -/
def shiftErr (e : PErr) (off : Nat) : PErr :=
  ⟨e.kind, ⟨e.ctx.line, e.ctx.colnr.map (· + off), e.ctx.refColnr.map (· + off), e.ctx.refLine⟩⟩

/-- A preprocessor variable (`_Variable` namedtuple): value plus the line of
the defining context. -/
structure PVar where
  value : List Char
  ctxLine : List Char
deriving DecidableEq, Repr

/-- The variable table `self._varstack`: an insertion-ordered dict keyed by
the upper-cased name. -/
abbrev VarStack := List (List Char × PVar)

/-- Dict lookup `self._varstack[key.upper()].value`; keys are stored
upper-cased, the query key is upper-cased before comparison. -/
def lookupVar (vs : VarStack) (key : List Char) : Option (List Char) :=
  (vs.find? (fun p => p.1 == upperL key)).map (fun p => p.2.value)

/-- Dict store `self._varstack[keyU] = v` (the caller upper-cases the key):
overwrite in place when present, append otherwise. -/
def setVar (vs : VarStack) (keyU : List Char) (v : PVar) : VarStack :=
  if (vs.find? (fun p => p.1 == keyU)).isSome then
    vs.map (fun p => if p.1 == keyU then (keyU, v) else p)
  else vs ++ [(keyU, v)]

/-- Prefix match of `_VALID_VAR_NAME_MATCH = [a-z_]\w*` (IGNORECASE, ASCII):
`re.match` succeeds exactly when the string is nonempty and starts with a
letter or underscore (the `\w*` tail always matches). -/
def validVarName : List Char → Bool
  | [] => false
  | c :: _ => c.isAlpha || c == '_'

/-- The pattern `${` searched for by the first substitution pass. -/
def dollarBraceP : List Char := ['$', '\x7b']

/-- First pass of `CP2KPreprocessor._resolve_variables`
(preprocessor.py lines 43-75): repeatedly find the next `${`, then the first
`}` after it; split the enclosed text at its first `-` into key and optional
default; validate the key, look it up upper-cased, fall back to the default;
splice the replacement and loop (scanning restarts at index 0, as in the
source).  `orig` is the line captured in `Context(line=line)` before the loop.
Fuel bounds the unbounded `while True`. -/
def braceLoop (vs : VarStack) (orig : List Char) : Nat → List Char → Option (Except PErr (List Char))
  | 0, _ => none
  | fuel + 1, line =>
    match findFrom dollarBraceP line 0 with
    | none => some (.ok line)
    | some vstart =>
      match findFrom ['\x7d'] line (vstart + 2) with
      | none => some (.error ⟨.unterminatedVar, ⟨orig, some line.length, some vstart, none⟩⟩)
      | some vend =>
        let key0 := sliceList line (vstart + 2) vend
        let kd : List Char × Option (List Char) :=
          match splitFirstSub ['-'] key0 with
          | some (k, d) => (k, some d)
          | none => (key0, none)
        if validVarName kd.1 then
          match lookupVar vs kd.1 with
          | some v => braceLoop vs orig fuel (line.take vstart ++ v ++ line.drop (vend + 1))
          | none =>
            match kd.2 with
            | some d => braceLoop vs orig fuel (line.take vstart ++ d ++ line.drop (vend + 1))
            | none => some (.error ⟨.undefinedVarNoDefault kd.1, ⟨orig, some vstart, some vend, none⟩⟩)
        else some (.error ⟨.invalidVarName kd.1, ⟨orig, some vstart, some vend, none⟩⟩)

/-- Second pass of `CP2KPreprocessor._resolve_variables`
(preprocessor.py lines 80-103): repeatedly find the next `$`; the key runs to
the next space or, when there is none, to the end of the right-stripped line;
validate, look up (no default form), and splice `line[:var_start] + value +
line[var_end:]` — note the terminating delimiter at `var_end` is kept. -/
def bareLoop (vs : VarStack) (orig : List Char) : Nat → List Char → Option (Except PErr (List Char))
  | 0, _ => none
  | fuel + 1, line =>
    match findFrom ['$'] line 0 with
    | none => some (.ok line)
    | some vstart =>
      let vend := match findFrom [' '] line (vstart + 1) with
        | some j => j
        | none => (pyRstrip line).length
      let key := sliceList line (vstart + 1) vend
      if validVarName key then
        match lookupVar vs key with
        | some v => bareLoop vs orig fuel (line.take vstart ++ v ++ line.drop vend)
        | none => some (.error ⟨.undefinedVar key, ⟨orig, some vstart, some (vend - 1), none⟩⟩)
      else some (.error ⟨.invalidVarName key, ⟨orig, some vstart, some (vend - 1), none⟩⟩)

/-- `CP2KPreprocessor._resolve_variables` (preprocessor.py lines 34-105): the
brace pass followed by the bare pass, sharing the context line. -/
def resolveVariablesF (vs : VarStack) (fuel : Nat) (line : List Char) :
    Option (Except PErr (List Char)) :=
  match braceLoop vs line fuel line with
  | none => none
  | some (.error e) => some (.error e)
  | some (.ok l2) => bareLoop vs line fuel l2

deriving instance DecidableEq for Except

/-- Conditional statement token of `_CONDITIONAL_MATCH`. -/
inductive CStmt where
  | ifStmt
  | endifStmt
deriving DecidableEq, Repr

/-- Matches `_CONDITIONAL_MATCH = \s*@(IF|ENDIF)\s*(.*)` (IGNORECASE) against
a whole line, returning the statement, the `cond` group text and the start
index of the `cond` group (the regex alternation tries `IF` first; `\s*` is
greedy; `.*` runs to the end of the line). -/
def matchConditional (line : List Char) : Option (CStmt × List Char × Nat) :=
  let ws := line.takeWhile pyIsSpace
  match line.drop ws.length with
  | '@' :: r2 =>
    if leadsWithUpper ['I', 'F'] r2 then
      let r3 := r2.drop 2
      let ws2 := r3.takeWhile pyIsSpace
      some (.ifStmt, r3.drop ws2.length, ws.length + 3 + ws2.length)
    else if leadsWithUpper ['E', 'N', 'D', 'I', 'F'] r2 then
      let r3 := r2.drop 5
      let ws2 := r3.takeWhile pyIsSpace
      some (.endifStmt, r3.drop ws2.length, ws.length + 6 + ws2.length)
    else none
  | _ => none

/-- Matches `_SET_MATCH = \s*@SET\s+(?P<var>\w+)\s+(?P<value>.+)` (IGNORECASE),
returning the `var` and `value` groups.  When everything after the separating
whitespace is blank, backtracking makes `.+` match the last whitespace
character (so `@SET X␣␣` yields value `␣`); with only one trailing whitespace
character the match fails. -/
def matchSet (line : List Char) : Option (List Char × List Char) :=
  let ws := line.takeWhile pyIsSpace
  match line.drop ws.length with
  | '@' :: r2 =>
    if leadsWithUpper ['S', 'E', 'T'] r2 then
      let t := r2.drop 3
      let ws1 := t.takeWhile pyIsSpace
      if ws1.isEmpty then none
      else
        let t2 := t.drop ws1.length
        let var := t2.takeWhile isWordChar
        if var.isEmpty then none
        else
          let t3 := t2.drop var.length
          let ws2 := t3.takeWhile pyIsSpace
          if ws2.isEmpty then none
          else
            let t4 := t3.drop ws2.length
            match t4 with
            | _ :: _ => some (var, t4)
            | [] => if 2 ≤ ws2.length then some (var, ws2.drop (ws2.length - 1)) else none
    else none
  | _ => none

/-- Matches `_INCLUDE_MATCH = \s*(?P<complete>@INCLUDE\b\s*(?P<file>.*))`
(IGNORECASE), returning the `file` group together with the start index of the
`file` group and the span of the `complete` group. -/
def matchInclude (line : List Char) : Option (List Char × Nat × Nat × Nat) :=
  let ws := line.takeWhile pyIsSpace
  match line.drop ws.length with
  | '@' :: r2 =>
    if leadsWithUpper ['I', 'N', 'C', 'L', 'U', 'D', 'E'] r2 then
      let t := r2.drop 7
      let wordBoundary := match t with
        | [] => true
        | c :: _ => !isWordChar c
      if wordBoundary then
        let ws2 := t.takeWhile pyIsSpace
        some (t.drop ws2.length, ws.length + 8 + ws2.length, ws.length, line.length)
      else none
    else none
  | _ => none

/-- The open `@IF` block (`_ConditionalBlock` namedtuple): evaluated condition
plus the line of its opening context. -/
structure CondBlock where
  condition : Bool
  ctxLine : List Char
deriving DecidableEq, Repr

/-- Mutable preprocessor state: the variable table and the at-most-one open
conditional block. -/
structure PPState where
  varstack : VarStack
  condBlock : Option CondBlock
deriving DecidableEq, Repr

/-- Result of handling one line inside the iterator: skip it, emit a resolved
line, or push an included file (by resolved path) onto the line source. -/
inductive StepResult where
  | skip (st : PPState)
  | emit (st : PPState) (resolved : List Char)
  | include (st : PPState) (path : List Char)
deriving DecidableEq, Repr

/-- The state carried by a step result. -/
def StepResult.state : StepResult → PPState
  | .skip st => st
  | .emit st _ => st
  | .include st _ => st

/-- Modelled from the spec: the external tokenizer splits a raw string into
whitespace-separated tokens, where a leading quote character opens a quoted
token running to the matching quote (kept in the token); an unterminated
quote is a tokenizer error.  Only used to validate quoted `@INCLUDE`
arguments; the module itself is not under src/. -/
def tokenizeAux (orig : List Char) : Nat → List Char → Except PErr (List (List Char))
  | 0, _ => .ok []
  | _, [] => .ok []
  | f + 1, c :: cs =>
    if pyIsSpace c then tokenizeAux orig f cs
    else if c == '\x27' || c == '"' then
      match splitFirstSub [c] cs with
      | none => .error ⟨.unterminatedQuote, ⟨orig, some 0, none, none⟩⟩
      | some (tok, rest) => (tokenizeAux orig f rest).map (fun ts => (c :: tok ++ [c]) :: ts)
    else
      let tok := (c :: cs).takeWhile (fun d => !pyIsSpace d)
      (tokenizeAux orig f ((c :: cs).drop tok.length)).map (fun ts => tok :: ts)

/-- Modelled from the spec: entry point of the external tokenizer. -/
def tokenizePy (l : List Char) : Except PErr (List (List Char)) :=
  tokenizeAux l (l.length + 1) l

/-- Models `pathlib.Path(base).joinpath(f)`: an absolute argument replaces the
base, a relative one is appended under it. -/
def pyJoinPath (base f : List Char) : List Char :=
  if leadsWith ['/'] f then f else base ++ '/' :: f

/-- Classifies a resolved, stripped `@IF` condition
(preprocessor.py lines 141-150): empty or `0` is false; `==` splits at its
first occurrence and compares the trimmed sides for equality; otherwise `/=`
likewise for inequality; anything else is true. -/
def classifyCond (condition : List Char) : Bool :=
  if condition = [] ∨ condition = ['0'] then false
  else match splitFirstSub ['=', '='] condition with
    | some (l, r) => pyStripWs l == pyStripWs r
    | none => match splitFirstSub ['/', '='] condition with
      | some (l, r) => pyStripWs l != pyStripWs r
      | none => true

/-- The `@SET` / `@INCLUDE` / unknown-directive tail of
`CP2KPreprocessor._parse_preprocessor_instruction`
(preprocessor.py lines 157-208), reached only when no conditional matched and
no false block is open. -/
def parseInstrRest (base : List Char) (fuel : Nat) (st : PPState) (line : List Char) (ctx : Ctx) :
    Option (Except PErr StepResult) :=
  match matchSet line with
  | some (var, value0) =>
    match resolveVariablesF st.varstack fuel value0 with
    | none => none
    | some (.error e) => some (.error e)
    | some (.ok value) =>
      if validVarName var then
        some (.ok (.skip ⟨setVar st.varstack (upperL var) ⟨value, line⟩, st.condBlock⟩))
      else some (.error ⟨.invalidVarName var, ctx⟩)
  | none =>
    match matchInclude line with
    | some (file0, fileStart, compStart, compEnd) =>
      match resolveVariablesF st.varstack fuel file0 with
      | none => none
      | some (.error e) => some (.error (shiftErr e fileStart))
      | some (.ok fname) =>
        let quoted := match fname with
          | c :: _ => c == '\x27' || c == '"'
          | [] => false
        let afterTok : Except PErr (List Char) :=
          if quoted then
            match tokenizePy fname with
            | .error e => .error (shiftErr e fileStart)
            | .ok tokens =>
              if tokens.length ≠ 1 then
                .error ⟨.includeArgCount, ⟨[], some compStart, some compEnd, none⟩⟩
              else .ok (pyStripQuotes (tokens.headD []))
          else .ok fname
        match afterTok with
        | .error e => some (.error e)
        | .ok fname2 =>
          if fname2 = [] then
            some (.error ⟨.includeArgCount, ⟨[], some compStart, some compEnd, none⟩⟩)
          else
            some (.ok (.include st (pyJoinPath base (pyStripQuotes fname2))))
    | none => some (.error ⟨.unknownDirective, ctx⟩)

/-- `CP2KPreprocessor._parse_preprocessor_instruction`
(preprocessor.py lines 107-208).  Conditionals are handled first; while the
open block's condition is false every other directive line returns
unchanged; then `@SET`, then `@INCLUDE`, and anything else is an unknown
directive.  `fuel` feeds the nested variable resolutions. -/
def parseInstr (base : List Char) (fuel : Nat) (st : PPState) (line : List Char) :
    Option (Except PErr StepResult) :=
  let ctx := mkCtx line
  match matchConditional line with
  | some (stmt, cond0, condStart) =>
    let condition := pyStripWs cond0
    match stmt with
    | .endifStmt =>
      match st.condBlock with
      | none => some (.error ⟨.endifWithoutIf, ctx⟩)
      | some _ =>
        if condition ≠ [] ∧ (∀ c, condition.head? = some c → c ≠ '!' ∧ c ≠ '#') then
          some (.error ⟨.garbageAfterEndif, ⟨line, some condStart, some line.length, none⟩⟩)
        else
          some (.ok (.skip ⟨st.varstack, none⟩))
    | .ifStmt =>
      match st.condBlock with
      | some cb => some (.error ⟨.nestedIf, ⟨line, none, none, some cb.ctxLine⟩⟩)
      | none =>
        match resolveVariablesF st.varstack fuel condition with
        | none => none
        | some (.error e) => some (.error (shiftErr e condStart))
        | some (.ok cond2) =>
          some (.ok (.skip ⟨st.varstack, some ⟨classifyCond cond2, line⟩⟩))
  | none =>
    match st.condBlock with
    | some cb =>
      if cb.condition then parseInstrRest base fuel st line ctx
      else some (.ok (.skip st))
    | none => parseInstrRest base fuel st line ctx

/-- The modelled file system for `@INCLUDE`: resolved path to file lines. -/
abbrev FileSys := List (List Char × List (List Char))

/-- Looks a path up in the modelled file system (`open` succeeds iff the path
is present). -/
def fsLookup (fs : FileSys) (path : List Char) : Option (List (List Char)) :=
  (fs.find? (fun p => p.1 == path)).map (fun p => p.2)

/-- The emit half of the `__iter__` body (preprocessor.py line 225): resolve
the line and yield it. -/
def ppEmit (fuel : Nat) (st : PPState) (line : List Char) : Option (Except PErr StepResult) :=
  match resolveVariablesF st.varstack fuel line with
  | none => none
  | some (.error e) => some (.error e)
  | some (.ok r) => some (.ok (.emit st r))

/-- One iteration of the `CP2KPreprocessor.__iter__` body
(preprocessor.py lines 211-227): empty lines and comment lines are passed
over, `@`-initial lines go to the instruction handler, anything inside a
false block is skipped, and everything else is resolved and emitted.
`COMMENT_CHARS` is modelled from the spec (and the sibling parser.py line
303) as `!` and `#`. -/
def ppStep (base : List Char) (fuel : Nat) (st : PPState) (line : List Char) :
    Option (Except PErr StepResult) :=
  match line with
  | [] => some (.ok (.skip st))
  | c :: _ =>
    if c = '!' ∨ c = '#' then some (.ok (.skip st))
    else if c = '@' then parseInstr base fuel st line
    else
      match st.condBlock with
      | some cb => if cb.condition then ppEmit fuel st line else some (.ok (.skip st))
      | none => ppEmit fuel st line

/-- Modelled from the spec: the `MultiFileLineIterator` (not under src/) is a
stack of open files whose top is drained first; `@INCLUDE` pushes a file on
top, and an exhausted file pops back to its includer.  This function runs the
whole `CP2KPreprocessor.__iter__` loop over such a stack, collecting the
emitted lines, and performs the final unclosed-block check of
preprocessor.py lines 236-239 when the stream ends.  Fuel is spent once per
processed line and once per pop. -/
def ppRunF (fs : FileSys) (base : List Char) :
    Nat → PPState → List (List (List Char)) → Option (Except PErr (List (List Char)))
  | _, st, [] =>
    match st.condBlock with
    | some cb => some (.error ⟨.unclosedBlock, ⟨[], none, none, some cb.ctxLine⟩⟩)
    | none => some (.ok [])
  | 0, _, _ :: _ => none
  | fuel + 1, st, [] :: stk => ppRunF fs base fuel st stk
  | fuel + 1, st, (l :: ls) :: stk =>
    match ppStep base (fuel + 1) st l with
    | none => none
    | some (.error e) => some (.error e)
    | some (.ok (.skip st2)) => ppRunF fs base fuel st2 (ls :: stk)
    | some (.ok (.emit st2 out)) =>
      match ppRunF fs base fuel st2 (ls :: stk) with
      | some (.ok rest) => some (.ok (out :: rest))
      | r => r
    | some (.ok (.include st2 path)) =>
      match fsLookup fs path with
      | none => some (.error ⟨.ioError path, mkCtx l⟩)
      | some body => ppRunF fs base fuel st2 (body :: ls :: stk)

/-- Prepends already-emitted lines to a run result, leaving errors and fuel
exhaustion unchanged. -/
def prependEmitted (pre : List (List Char)) :
    Option (Except PErr (List (List Char))) → Option (Except PErr (List (List Char)))
  | some (.ok out) => some (.ok (pre ++ out))
  | r => r

/-- Output tree value (spec §3 TreeNode): a scalar keyword value, a section
mapping in insertion order, or the ordered list a repeated entry is promoted
to. -/
inductive TreeNode where
  | scalar (v : List Char)
  | mapping (m : List (List Char × TreeNode))
  | rlist (l : List TreeNode)
deriving Repr

/-- A schema keyword node (`<KEYWORD>`/`<DEFAULT_KEYWORD>` element): NAME
texts (canonical name first, then aliases, stored upper-case) and the
`repeats` attribute. -/
structure KWNode where
  names : List (List Char)
  repeats : Bool
deriving Repr

/-- A schema section node (`<SECTION>` element): NAME texts, the `repeats`
attribute, whether a SECTION_PARAMETERS child is declared, child sections,
child keywords, and the optional DEFAULT_KEYWORD. -/
inductive SNode where
  | mk (names : List (List Char)) (repeats : Bool) (hasParam : Bool)
      (sections : List SNode) (keywords : List KWNode) (defaultKw : Option KWNode)
deriving Repr

/-- NAME texts of a schema section node. -/
def SNode.names : SNode → List (List Char)
  | .mk n _ _ _ _ _ => n

/-- The `repeats` flag of a schema section node. -/
def SNode.repeats : SNode → Bool
  | .mk _ r _ _ _ _ => r

/-- Whether the schema section declares SECTION_PARAMETERS. -/
def SNode.hasParam : SNode → Bool
  | .mk _ _ p _ _ _ => p

/-- Child sections of a schema section node. -/
def SNode.sections : SNode → List SNode
  | .mk _ _ _ s _ _ => s

/-- Child keywords of a schema section node. -/
def SNode.keywords : SNode → List KWNode
  | .mk _ _ _ _ k _ => k

/-- The DEFAULT_KEYWORD of a schema section node, when declared. -/
def SNode.defaultKw : SNode → Option KWNode
  | .mk _ _ _ _ _ d => d

/-- `_find_node_by_name` (parser.py lines 14-21) over child sections: the
first node whose NAME texts contain the upper-cased query. -/
def findSectionNode (children : List SNode) (nameU : List Char) : Option SNode :=
  children.find? (fun n => n.names.contains nameU)

/-- `_find_node_by_name` over child keywords. -/
def findKeywordNode (children : List KWNode) (nameU : List Char) : Option KWNode :=
  children.find? (fun n => n.names.contains nameU)

/-- Errors (and crashes) of the tree parser, one constructor per raise site
of `_parse_as_section` / `_parse_as_keyword`. -/
inductive PsErr where
  | sectionMismatch (param : List Char)
  | invalidSection (name : List Char)
  | pythonNameError (ident : String)
  | paramForNonParametrized
  | invalidKeyword
  | nameRepetition (name : List Char)
  | matchFailed
  | emptyStack
deriving DecidableEq, Repr

/-- A step of a tree position: entry key at the current mapping, plus the
index inside the entry when it has been promoted to a repeated list.  A list
of such steps addresses the dict a Python `self._treerefs` element aliases. -/
abbrev TPath := List (List Char × Option Nat)

/-- Parser state (spec §3 ParserState): the schema node stack `self._nodes`,
the output tree `self._tree`, and the tree position stack `self._treerefs`
represented by the access paths of its elements.  The head of each list is
the top of the corresponding Python stack. -/
structure PState where
  nodes : List SNode
  tree : TreeNode
  refs : List TPath
deriving Repr

/-- Initial parser state (parser.py lines 44-48): the schema root on the node
stack, an empty tree, and the root mapping on the tree stack. -/
def initPState (root : SNode) : PState := ⟨[root], .mapping [], [[]]⟩

/-- Ordered-dict lookup. -/
def mapGet (m : List (List Char × TreeNode)) (k : List Char) : Option TreeNode :=
  (m.find? (fun p => p.1 == k)).map (fun p => p.2)

/-- Ordered-dict store: overwrite in place, append new keys at the end
(Python dict insertion order). -/
def mapSet (m : List (List Char × TreeNode)) (k : List Char) (v : TreeNode) :
    List (List Char × TreeNode) :=
  if (m.find? (fun p => p.1 == k)).isSome then
    m.map (fun p => if p.1 == k then (k, v) else p)
  else m ++ [(k, v)]

/-- Follows one path step down the tree. -/
def treeStep (t : TreeNode) (s : List Char × Option Nat) : Option TreeNode :=
  match t, s with
  | .mapping m, (k, none) => mapGet m k
  | .mapping m, (k, some i) =>
    match mapGet m k with
    | some (.rlist l) => l.get? i
    | _ => none
  | _, _ => none

/-- Reads the mapping a `self._treerefs` element aliases. -/
def readAt : TreeNode → TPath → Option (List (List Char × TreeNode))
  | .mapping m, [] => some m
  | t, s :: p =>
    match treeStep t s with
    | some t2 => readAt t2 p
    | none => none
  | _, _ => none

/-- Writes a new mapping at a path, mirroring a mutation through a
`self._treerefs` alias. -/
def writeAt : TreeNode → TPath → List (List Char × TreeNode) → Option TreeNode
  | .mapping _, [], m2 => some (.mapping m2)
  | .mapping m, (k, none) :: p, m2 =>
    match mapGet m k with
    | some t2 => (writeAt t2 p m2).map (fun t3 => .mapping (mapSet m k t3))
    | none => none
  | .mapping m, (k, some i) :: p, m2 =>
    match mapGet m k with
    | some (.rlist l) =>
      match l.get? i with
      | some t2 => (writeAt t2 p m2).map (fun t3 => .mapping (mapSet m k (.rlist (l.set i t3))))
      | none => none
    | _ => none
  | _, _, _ => none

/-- Matches `_SECTION_MATCH = &(?P<name>[\w\-_]+)\s*(?P<param>.*)` against a
line, returning the name and parameter groups. -/
def sectionMatch (line : List Char) : Option (List Char × List Char) :=
  match line with
  | '&' :: rest =>
    let name := rest.takeWhile (fun c => isWordChar c || c == '-')
    if name.isEmpty then none
    else
      let t := rest.drop name.length
      some (name, t.drop (t.takeWhile pyIsSpace).length)
  | _ => none

/-- Matches `_KEYWORD_MATCH = (?P<name>[\w\-_]+)\s*(?P<value>.*)`. -/
def keywordMatch (line : List Char) : Option (List Char × List Char) :=
  let name := line.takeWhile (fun c => isWordChar c || c == '-')
  if name.isEmpty then none
  else
    let t := line.drop name.length
    some (name, t.drop (t.takeWhile pyIsSpace).length)

/-- Result of the delegated `parse_keyword` (keyword_helpers, an external
collaborator the spec leaves out of scope): canonical name, `repeats` flag of
the node, and the values, abstracted here as the raw string. -/
structure KwParsed where
  name : List Char
  repeats : Bool
  values : TreeNode

/-- Abstraction of the external `parse_keyword`: the canonical name is the
first NAME text of the node, `repeats` is the node's flag, and value
conversion is left as the identity on the raw string. -/
def parseKeywordExt (node : KWNode) (value : List Char) : KwParsed :=
  ⟨node.names.headD [], node.repeats, .scalar value⟩

/-- `CP2KInputParser._parse_as_section` (parser.py lines 57-125).  `&END`
pops both stacks with no root guard (an over-pop of the empty stack is the
`IndexError` crash, modelled as `emptyStack`).  A new section looks the name
up in the schema, pushes the schema node, and inserts `+NAME` at the current
tree level: a first occurrence creates a mapping, a repeated occurrence of a
repeatable section promotes to / appends to a list, and a repeated occurrence
of a non-repeatable section evaluates the undefined name `section_token` on
parser.py line 116, a Python `NameError` (modelled as `pythonNameError`)
rather than the intended `InvalidNameError`. -/
def parseAsSection (st : PState) (line : List Char) : Except PsErr PState :=
  match sectionMatch line with
  | none => .error .matchFailed
  | some (name0, param0) =>
    let nameU := upperL name0
    if nameU = ['E', 'N', 'D'] then
      let param := pyRstrip param0
      match st.nodes with
      | [] => .error .emptyStack
      | top :: restNodes =>
        if param ≠ [] ∧ (top.names.contains (upperL param)) = false then
          .error (.sectionMismatch param)
        else
          match st.refs with
          | [] => .error .emptyStack
          | _ :: restRefs => .ok ⟨restNodes, st.tree, restRefs⟩
    else
      match st.nodes with
      | [] => .error .emptyStack
      | top :: _ =>
        match findSectionNode top.sections nameU with
        | none => .error (.invalidSection nameU)
        | some node =>
          let sname := '+' :: nameU
          match st.refs with
          | [] => .error .emptyStack
          | curPath :: _ =>
            match readAt st.tree curPath with
            | none => .error .emptyStack
            | some cur =>
              let ins : Except PsErr (List (List Char × TreeNode) × TPath) :=
                match mapGet cur sname with
                | none => .ok (mapSet cur sname (.mapping []), curPath ++ [(sname, none)])
                | some old =>
                  if node.repeats then
                    match old with
                    | .rlist l =>
                      .ok (mapSet cur sname (.rlist (l ++ [.mapping []])),
                        curPath ++ [(sname, some l.length)])
                    | _ =>
                      .ok (mapSet cur sname (.rlist [old, .mapping []]),
                        curPath ++ [(sname, some 1)])
                  else .error (.pythonNameError "section_token")
              match ins with
              | .error e => .error e
              | .ok (cur2, newPath) =>
                match writeAt st.tree curPath cur2 with
                | none => .error .emptyStack
                | some tree2 =>
                  let st2 : PState := ⟨node :: st.nodes, tree2, newPath :: st.refs⟩
                  if node.hasParam then
                    match writeAt tree2 newPath (mapSet [] ['_'] (.scalar param0)) with
                    | none => .error .emptyStack
                    | some tree3 => .ok ⟨st2.nodes, tree3, st2.refs⟩
                  else if param0 ≠ [] then .error .paramForNonParametrized
                  else .ok st2

/-- `CP2KInputParser._parse_as_keyword` (parser.py lines 127-166): look the
name up among the section's keywords, fall back to the DEFAULT_KEYWORD with
the whole line as value; a first occurrence stores a single value, a repeat
of a repeatable keyword promotes to / appends to a list, and a repeat of a
non-repeatable keyword raises `NameRepetitionError`. -/
def parseAsKeyword (st : PState) (line : List Char) : Except PsErr PState :=
  match keywordMatch line with
  | none => .error .matchFailed
  | some (name0, value0) =>
    let nameU := upperL name0
    match st.nodes with
    | [] => .error .emptyStack
    | top :: _ =>
      let hit : Option (KWNode × List Char) :=
        match findKeywordNode top.keywords nameU with
        | some n => some (n, value0)
        | none =>
          match top.defaultKw with
          | some dn => some (dn, line)
          | none => none
      match hit with
      | none => .error .invalidKeyword
      | some (kwnode, value) =>
        let kw := parseKeywordExt kwnode value
        match st.refs with
        | [] => .error .emptyStack
        | curPath :: _ =>
          match readAt st.tree curPath with
          | none => .error .emptyStack
          | some cur =>
            let ins : Except PsErr (List (List Char × TreeNode)) :=
              match mapGet cur kw.name with
              | none => .ok (mapSet cur kw.name kw.values)
              | some old =>
                if kw.repeats then
                  match old with
                  | .rlist l => .ok (mapSet cur kw.name (.rlist (l ++ [kw.values])))
                  | _ => .ok (mapSet cur kw.name (.rlist [old, kw.values]))
                else .error (.nameRepetition kw.name)
            match ins with
            | .error e => .error e
            | .ok cur2 =>
              match writeAt st.tree curPath cur2 with
              | none => .error .emptyStack
              | some tree2 => .ok ⟨st.nodes, tree2, st.refs⟩

/-- Dispatch of one resolved line in `CP2KInputParser.parse`
(parser.py lines 316-320): `&`-initial lines are sections, the rest keywords. -/
def parseLine (st : PState) (line : List Char) : Except PsErr PState :=
  if leadsWith ['&'] line then parseAsSection st line else parseAsKeyword st line

/-- Folds `parseLine` over a list of resolved lines. -/
def parseLines (st : PState) : List (List Char) → Except PsErr PState
  | [] => .ok st
  | l :: ls =>
    match parseLine st l with
    | .error e => .error e
    | .ok st2 => parseLines st2 ls

/-- Whether a section line is an `&END` directive. -/
def isEndLine (line : List Char) : Bool :=
  match sectionMatch line with
  | some (n, _) => upperL n == ['E', 'N', 'D']
  | none => false

/-- The self-referential variable table of C10's parenthetical: `X` stored as
the text `$X`. -/
def selfRefVs : VarStack := [(['X'], ⟨['$', 'X'], []⟩)]

/-- Concrete schema for the repetition claims: root with a non-repeatable
section `NR`, a repeatable section `RP`, a non-repeatable keyword `K` and a
repeatable keyword `RK`. -/
def kwK : KWNode := ⟨[['K']], false⟩

/-- The repeatable keyword `RK` of the concrete schema. -/
def kwRK : KWNode := ⟨[['R', 'K']], true⟩

/-- The non-repeatable section `NR` of the concrete schema. -/
def secNR : SNode := .mk [['N', 'R']] false false [] [] none

/-- The repeatable section `RP` of the concrete schema. -/
def secRP : SNode := .mk [['R', 'P']] true false [] [] none

/-- Root of the concrete schema. -/
def schemaRoot : SNode :=
  .mk [['R', 'O', 'O', 'T']] false false [secNR, secRP] [kwK, kwRK] none

/-- Initial state over the concrete schema. -/
def initRoot : PState := initPState schemaRoot

/-- The state reached from the initial state by entering `&NR`. -/
def c5WitState : PState :=
  ⟨[secNR, schemaRoot], .mapping [(['+', 'N', 'R'], .mapping [])],
    [[(['+', 'N', 'R'], none)], []]⟩

/-- Hypothesis of C10: no stored variable value contains a `$`. -/
def valuesNoDollar (vs : VarStack) : Prop := ∀ p ∈ vs, '$' ∉ p.2.value

theorem leadsWith_iff (pat : List Char) :
    ∀ l, leadsWith pat l = true ↔ ∃ t, l = pat ++ t := by
  induction pat with
  | nil => intro l; simp [leadsWith]
  | cons p ps ih =>
    intro l
    cases l with
    | nil => simp [leadsWith]
    | cons c cs =>
      simp only [leadsWith, Bool.and_eq_true, beq_iff_eq, ih, List.cons_append, List.cons.injEq]
      constructor
      · rintro ⟨h1, t, h2⟩
        exact ⟨t, h1.symm, h2⟩
      · rintro ⟨t, h1, h2⟩
        exact ⟨h1.symm, t, h2⟩

theorem leadsWith_append (pat t : List Char) : leadsWith pat (pat ++ t) = true :=
  (leadsWith_iff pat (pat ++ t)).mpr ⟨t, rfl⟩

theorem idxOfSub_none_of_not_mem (c : Char) (p : List Char) :
    ∀ l : List Char, c ∉ l → idxOfSub (c :: p) l = none := by
  intro l
  induction l with
  | nil => intro _; simp [idxOfSub, leadsWith]
  | cons a as ih =>
    intro h
    have hca : ¬(c = a) := fun hc => h (hc ▸ List.mem_cons_self a as)
    have hmem : c ∉ as := fun hm => h (List.mem_cons_of_mem a hm)
    simp only [idxOfSub, leadsWith, Bool.and_eq_true, beq_iff_eq]
    rw [if_neg (by simp [hca]), ih hmem]
    rfl

theorem idxOfSub_append (c : Char) (p : List Char) :
    ∀ A B : List Char, c ∉ A → leadsWith (c :: p) B = true →
      idxOfSub (c :: p) (A ++ B) = some A.length := by
  intro A
  induction A with
  | nil =>
    intro B _ hB
    cases B with
    | nil => simp [leadsWith] at hB
    | cons b bs => simp [idxOfSub, hB]
  | cons a as ih =>
    intro B hA hB
    have hca : ¬(c = a) := fun hc => hA (hc ▸ List.mem_cons_self a as)
    have hmem : c ∉ as := fun hm => hA (List.mem_cons_of_mem a hm)
    simp only [List.cons_append, idxOfSub, leadsWith, Bool.and_eq_true, beq_iff_eq,
      List.append_eq]
    rw [if_neg (by simp [hca]), ih B hmem hB]
    simp [List.length_cons]

theorem idxOfSub_some_leadsWith (pat : List Char) :
    ∀ l i, idxOfSub pat l = some i → leadsWith pat (l.drop i) = true := by
  intro l
  induction l with
  | nil =>
    intro i h
    simp only [idxOfSub] at h
    by_cases hc : leadsWith pat [] = true
    · rw [if_pos hc] at h
      cases h
      simpa using hc
    · rw [if_neg hc] at h
      cases h
  | cons a as ih =>
    intro i h
    simp only [idxOfSub] at h
    by_cases hc : leadsWith pat (a :: as) = true
    · rw [if_pos hc] at h
      cases h
      simpa using hc
    · rw [if_neg hc] at h
      match hj : idxOfSub pat as with
      | none => rw [hj] at h; cases h
      | some j =>
        rw [hj] at h
        simp only [Option.map] at h
        cases h
        simpa using ih j hj

theorem findFrom_brace (pre enc post : List Char) (hpre : '$' ∉ pre) :
    findFrom dollarBraceP (pre ++ '$' :: '\x7b' :: (enc ++ '\x7d' :: post)) 0 =
      some pre.length := by
  unfold findFrom dollarBraceP
  rw [List.drop_zero]
  rw [idxOfSub_append '$' ['\x7b'] pre ('$' :: '\x7b' :: (enc ++ '\x7d' :: post)) hpre
    (by simp [leadsWith])]
  simp

theorem findFrom_closeBrace (pre enc post : List Char) (henc : '\x7d' ∉ enc) :
    findFrom ['\x7d'] (pre ++ '$' :: '\x7b' :: (enc ++ '\x7d' :: post)) (pre.length + 2) =
      some (pre.length + 2 + enc.length) := by
  unfold findFrom
  have hdrop : (pre ++ '$' :: '\x7b' :: (enc ++ '\x7d' :: post)).drop (pre.length + 2) =
      enc ++ '\x7d' :: post := by
    have : pre ++ '$' :: '\x7b' :: (enc ++ '\x7d' :: post) =
        (pre ++ ['$', '\x7b']) ++ (enc ++ '\x7d' :: post) := by simp
    rw [this]
    have hlen : (pre ++ ['$', '\x7b']).length = pre.length + 2 := by simp
    rw [← hlen, List.drop_left]
  rw [hdrop]
  rw [idxOfSub_append '\x7d' [] enc ('\x7d' :: post) henc (by simp [leadsWith])]
  simp [Nat.add_comm]

theorem take_of_append (pre rest : List Char) : (pre ++ rest).take pre.length = pre :=
  List.take_left pre rest

theorem slice_brace (pre enc post : List Char) :
    sliceList (pre ++ '$' :: '\x7b' :: (enc ++ '\x7d' :: post)) (pre.length + 2)
      (pre.length + 2 + enc.length) = enc := by
  unfold sliceList
  have hdrop : (pre ++ '$' :: '\x7b' :: (enc ++ '\x7d' :: post)).drop (pre.length + 2) =
      enc ++ '\x7d' :: post := by
    have : pre ++ '$' :: '\x7b' :: (enc ++ '\x7d' :: post) =
        (pre ++ ['$', '\x7b']) ++ (enc ++ '\x7d' :: post) := by simp
    rw [this]
    have hlen : (pre ++ ['$', '\x7b']).length = pre.length + 2 := by simp
    rw [← hlen, List.drop_left]
  rw [hdrop]
  have : pre.length + 2 + enc.length - (pre.length + 2) = enc.length := by omega
  rw [this, List.take_left]

theorem drop_after_brace (pre enc post : List Char) :
    (pre ++ '$' :: '\x7b' :: (enc ++ '\x7d' :: post)).drop (pre.length + 2 + enc.length + 1) =
      post := by
  have : pre ++ '$' :: '\x7b' :: (enc ++ '\x7d' :: post) =
      (pre ++ ['$', '\x7b'] ++ enc ++ ['\x7d']) ++ post := by simp
  rw [this]
  have hlen : (pre ++ ['$', '\x7b'] ++ enc ++ ['\x7d']).length =
      pre.length + 2 + enc.length + 1 := by simp; omega
  rw [← hlen, List.drop_left]

theorem braceLoop_cons (vs : VarStack) (orig : List Char) (f : Nat) (pre enc post : List Char)
    (hpre : '$' ∉ pre) (henc : '\x7d' ∉ enc) :
    braceLoop vs orig (f + 1) (pre ++ '$' :: '\x7b' :: (enc ++ '\x7d' :: post)) =
      (let kd : List Char × Option (List Char) :=
        match splitFirstSub ['-'] enc with
        | some (k, d) => (k, some d)
        | none => (enc, none)
      if validVarName kd.1 then
        match lookupVar vs kd.1 with
        | some v => braceLoop vs orig f (pre ++ v ++ post)
        | none =>
          match kd.2 with
          | some d => braceLoop vs orig f (pre ++ d ++ post)
          | none => some (.error ⟨.undefinedVarNoDefault kd.1,
              ⟨orig, some pre.length, some (pre.length + 2 + enc.length), none⟩⟩)
      else some (.error ⟨.invalidVarName kd.1,
          ⟨orig, some pre.length, some (pre.length + 2 + enc.length), none⟩⟩)) := by
  conv_lhs => rw [braceLoop]
  rw [findFrom_brace pre enc post hpre]
  dsimp only
  rw [findFrom_closeBrace pre enc post henc]
  dsimp only
  rw [slice_brace, take_of_append, drop_after_brace]

theorem braceLoop_exit (vs : VarStack) (orig : List Char) (f : Nat) (line : List Char)
    (h : '$' ∉ line) : braceLoop vs orig (f + 1) line = some (.ok line) := by
  rw [braceLoop]
  unfold findFrom dollarBraceP
  rw [List.drop_zero, idxOfSub_none_of_not_mem '$' ['\x7b'] line h]
  rfl

theorem bareLoop_exit (vs : VarStack) (orig : List Char) (f : Nat) (line : List Char)
    (h : '$' ∉ line) : bareLoop vs orig (f + 1) line = some (.ok line) := by
  rw [bareLoop]
  unfold findFrom
  rw [List.drop_zero, idxOfSub_none_of_not_mem '$' [] line h]
  rfl

theorem findFrom_bare (pre X post : List Char) (hpre : '$' ∉ pre) :
    findFrom ['$'] (pre ++ '$' :: (X ++ ' ' :: post)) 0 = some pre.length := by
  unfold findFrom
  rw [List.drop_zero]
  rw [idxOfSub_append '$' [] pre ('$' :: (X ++ ' ' :: post)) hpre (by simp [leadsWith])]
  simp

theorem findFrom_space (pre X post : List Char) (hX : ' ' ∉ X) :
    findFrom [' '] (pre ++ '$' :: (X ++ ' ' :: post)) (pre.length + 1) =
      some (pre.length + 1 + X.length) := by
  unfold findFrom
  have hdrop : (pre ++ '$' :: (X ++ ' ' :: post)).drop (pre.length + 1) = X ++ ' ' :: post := by
    have : pre ++ '$' :: (X ++ ' ' :: post) = (pre ++ ['$']) ++ (X ++ ' ' :: post) := by simp
    rw [this]
    have hlen : (pre ++ ['$']).length = pre.length + 1 := by simp
    rw [← hlen, List.drop_left]
  rw [hdrop]
  rw [idxOfSub_append ' ' [] X (' ' :: post) hX (by simp [leadsWith])]
  simp [Nat.add_comm]

theorem slice_bare (pre X post : List Char) :
    sliceList (pre ++ '$' :: (X ++ ' ' :: post)) (pre.length + 1) (pre.length + 1 + X.length) =
      X := by
  unfold sliceList
  have hdrop : (pre ++ '$' :: (X ++ ' ' :: post)).drop (pre.length + 1) = X ++ ' ' :: post := by
    have : pre ++ '$' :: (X ++ ' ' :: post) = (pre ++ ['$']) ++ (X ++ ' ' :: post) := by simp
    rw [this]
    have hlen : (pre ++ ['$']).length = pre.length + 1 := by simp
    rw [← hlen, List.drop_left]
  rw [hdrop]
  have : pre.length + 1 + X.length - (pre.length + 1) = X.length := by omega
  rw [this, List.take_left]

theorem drop_at_space (pre X post : List Char) :
    (pre ++ '$' :: (X ++ ' ' :: post)).drop (pre.length + 1 + X.length) = ' ' :: post := by
  have : pre ++ '$' :: (X ++ ' ' :: post) = (pre ++ ['$'] ++ X) ++ ' ' :: post := by simp
  rw [this]
  have hlen : (pre ++ ['$'] ++ X).length = pre.length + 1 + X.length := by simp; omega
  rw [← hlen, List.drop_left]

theorem bareLoop_subst (vs : VarStack) (orig : List Char) (f : Nat) (pre X post v : List Char)
    (hpre : '$' ∉ pre) (hX : ' ' ∉ X) (hvalid : validVarName X = true)
    (hlook : lookupVar vs X = some v) :
    bareLoop vs orig (f + 1) (pre ++ '$' :: (X ++ ' ' :: post)) =
      bareLoop vs orig f (pre ++ v ++ ' ' :: post) := by
  conv_lhs => rw [bareLoop]
  rw [findFrom_bare pre X post hpre]
  dsimp only
  rw [findFrom_space pre X post hX]
  dsimp only
  rw [slice_bare, take_of_append, drop_at_space, hvalid, if_pos rfl, hlook]

theorem splitFirstSub_none (c : Char) (l : List Char) (h : c ∉ l) :
    splitFirstSub [c] l = none := by
  unfold splitFirstSub
  rw [idxOfSub_none_of_not_mem c [] l h]

theorem splitFirstSub_append (c : Char) (name dflt : List Char) (h : c ∉ name) :
    splitFirstSub [c] (name ++ c :: dflt) = some (name, dflt) := by
  unfold splitFirstSub
  rw [idxOfSub_append c [] name (c :: dflt) h (by simp [leadsWith])]
  have h1 : (name ++ c :: dflt).take name.length = name := List.take_left name (c :: dflt)
  have h2 : (name ++ c :: dflt).drop (name.length + 1) = dflt := by
    have : name ++ c :: dflt = (name ++ [c]) ++ dflt := by simp
    rw [this]
    have hlen : (name ++ [c]).length = name.length + 1 := by simp
    rw [← hlen, List.drop_left]
  simp only [List.length_cons, List.length_nil, h1, h2, Nat.zero_add]

/-- C2.  For a line containing a brace-form reference, the enclosed text is
split at its first `-` into a (valid) name and a literal default: a bound
name substitutes the bound value, an unbound name with a default substitutes
the default, and only an unbound name without `-` fails, with an
undefined-variable error pinned to the `${...}` span (column of the `$` and
of the `}`). -/
theorem claim_C2 (vs : VarStack) (f : Nat) (pre post name dflt V : List Char)
    (hpre : '$' ∉ pre) (hpost : '$' ∉ post)
    (hvalid : validVarName name = true)
    (hnh : '-' ∉ name) (hnb : '\x7d' ∉ name) (hdb : '\x7d' ∉ dflt) :
    (lookupVar vs name = some V → '$' ∉ V →
      resolveVariablesF vs (f + 2)
          (pre ++ '$' :: '\x7b' :: ((name ++ '-' :: dflt) ++ '\x7d' :: post)) =
        some (.ok (pre ++ V ++ post)))
  ∧ (lookupVar vs name = none → '$' ∉ dflt →
      resolveVariablesF vs (f + 2)
          (pre ++ '$' :: '\x7b' :: ((name ++ '-' :: dflt) ++ '\x7d' :: post)) =
        some (.ok (pre ++ dflt ++ post)))
  ∧ (lookupVar vs name = none →
      resolveVariablesF vs (f + 2) (pre ++ '$' :: '\x7b' :: (name ++ '\x7d' :: post)) =
        some (.error ⟨.undefinedVarNoDefault name,
          ⟨pre ++ '$' :: '\x7b' :: (name ++ '\x7d' :: post), some pre.length,
            some (pre.length + 2 + name.length), none⟩⟩)) := by
  have henc : '\x7d' ∉ name ++ '-' :: dflt := by
    intro hm
    rcases List.mem_append.mp hm with h | h
    · exact hnb h
    · rcases List.mem_cons.mp h with h | h
      · cases h
      · exact hdb h
  refine ⟨?_, ?_, ?_⟩
  · intro hlook hV
    have hnew : '$' ∉ pre ++ V ++ post := by
      intro hm
      rcases List.mem_append.mp hm with h | h
      · rcases List.mem_append.mp h with h | h
        · exact hpre h
        · exact hV h
      · exact hpost h
    unfold resolveVariablesF
    rw [show f + 2 = (f + 1) + 1 from rfl,
      braceLoop_cons vs _ (f + 1) pre (name ++ '-' :: dflt) post hpre henc]
    rw [splitFirstSub_append '-' name dflt hnh]
    dsimp only
    rw [hvalid, if_pos rfl, hlook]
    dsimp only
    rw [braceLoop_exit vs _ f _ hnew]
    dsimp only
    rw [bareLoop_exit vs _ (f + 1) _ hnew]
  · intro hlook hd
    have hnew : '$' ∉ pre ++ dflt ++ post := by
      intro hm
      rcases List.mem_append.mp hm with h | h
      · rcases List.mem_append.mp h with h | h
        · exact hpre h
        · exact hd h
      · exact hpost h
    unfold resolveVariablesF
    rw [show f + 2 = (f + 1) + 1 from rfl,
      braceLoop_cons vs _ (f + 1) pre (name ++ '-' :: dflt) post hpre henc]
    rw [splitFirstSub_append '-' name dflt hnh]
    dsimp only
    rw [hvalid, if_pos rfl, hlook]
    dsimp only
    rw [braceLoop_exit vs _ f _ hnew]
    dsimp only
    rw [bareLoop_exit vs _ (f + 1) _ hnew]
  · intro hlook
    unfold resolveVariablesF
    rw [show f + 2 = (f + 1) + 1 from rfl,
      braceLoop_cons vs _ (f + 1) pre name post hpre hnb]
    rw [splitFirstSub_none '-' name hnh]
    dsimp only
    rw [hvalid, if_pos rfl, hlook]

/-- C2 witness: with `X` bound to `42`, the line `a${X-d}b` resolves to
`a42b`. -/
theorem claim_C2_witness :
    resolveVariablesF [(['X'], ⟨['4', '2'], []⟩)] 2
        (['a'] ++ '$' :: '\x7b' :: ((['X'] ++ '-' :: ['d']) ++ '\x7d' :: ['b'])) =
      some (.ok (['a'] ++ ['4', '2'] ++ ['b'])) :=
  (claim_C2 [(['X'], ⟨['4', '2'], []⟩)] 0 ['a'] ['b'] ['X'] ['d'] ['4', '2']
    (by decide) (by decide) (by decide) (by decide) (by decide) (by decide)).1
    rfl (by decide)

/-- C4 counterexample: with `X` stored as the text `${Y}` and `Y` bound to
`1`, the line `${X}` resolves to `1` — the substituted text `${Y}` is
re-scanned and resolved instead of appearing literally as the claim
states. -/
theorem claim_C4_counterexample :
    resolveVariablesF [(['X'], ⟨['$', '\x7b', 'Y', '\x7d'], []⟩), (['Y'], ⟨['1'], []⟩)] 3
        ['$', '\x7b', 'X', '\x7d'] = some (.ok ['1'])
    ∧ (['1'] : List Char) ≠ ['$', '\x7b', 'Y', '\x7d'] :=
  ⟨rfl, by decide⟩

/-- C4 as amended: variable resolution is recursive on substituted text.
Each pass restarts scanning at the beginning of the line after every
substitution, so brace-form reference syntax stored inside a variable's
value is itself resolved rather than appearing literally: resolving `${X}`
with `X` stored as `${Y}` substitutes `Y`'s value. -/
theorem claim_C4 (vs : VarStack) (f : Nat) (pre post X Y W : List Char)
    (hpre : '$' ∉ pre) (hpost : '$' ∉ post)
    (hXv : validVarName X = true) (hXh : '-' ∉ X) (hXb : '\x7d' ∉ X)
    (hYv : validVarName Y = true) (hYh : '-' ∉ Y) (hYb : '\x7d' ∉ Y)
    (hlookX : lookupVar vs X = some ('$' :: '\x7b' :: Y ++ ['\x7d']))
    (hlookY : lookupVar vs Y = some W) (hW : '$' ∉ W) :
    resolveVariablesF vs (f + 3) (pre ++ '$' :: '\x7b' :: (X ++ '\x7d' :: post)) =
      some (.ok (pre ++ W ++ post)) := by
  have hnew : '$' ∉ pre ++ W ++ post := by
    intro hm
    rcases List.mem_append.mp hm with h | h
    · rcases List.mem_append.mp h with h | h
      · exact hpre h
      · exact hW h
    · exact hpost h
  unfold resolveVariablesF
  rw [show f + 3 = (f + 2) + 1 from rfl,
    braceLoop_cons vs _ (f + 2) pre X post hpre hXb]
  rw [splitFirstSub_none '-' X hXh]
  dsimp only
  rw [hXv, if_pos rfl, hlookX]
  dsimp only
  have hshape : pre ++ ('$' :: '\x7b' :: Y ++ ['\x7d']) ++ post =
      pre ++ '$' :: '\x7b' :: (Y ++ '\x7d' :: post) := by simp
  rw [hshape]
  rw [show f + 2 = (f + 1) + 1 from rfl,
    braceLoop_cons vs _ (f + 1) pre Y post hpre hYb]
  rw [splitFirstSub_none '-' Y hYh]
  dsimp only
  rw [hYv, if_pos rfl, hlookY]
  dsimp only
  rw [braceLoop_exit vs _ f _ hnew]
  dsimp only
  rw [bareLoop_exit vs _ (f + 2) _ hnew]

/-- C4 witness for the amended claim: the concrete instance of the
counterexample, derived from the general theorem. -/
theorem claim_C4_witness :
    resolveVariablesF [(['X'], ⟨['$', '\x7b', 'Y', '\x7d'], []⟩), (['Y'], ⟨['1'], []⟩)] 3
        ([] ++ '$' :: '\x7b' :: (['X'] ++ '\x7d' :: [])) = some (.ok ([] ++ ['1'] ++ [])) :=
  claim_C4 [(['X'], ⟨['$', '\x7b', 'Y', '\x7d'], []⟩), (['Y'], ⟨['1'], []⟩)] 0
    [] [] ['X'] ['Y'] ['1'] (by decide) (by decide) (by decide) (by decide) (by decide)
    (by decide) (by decide) (by decide) rfl rfl (by decide)

theorem findFrom_zero (pat line : List Char) : findFrom pat line 0 = idxOfSub pat line := by
  unfold findFrom
  rw [List.drop_zero]
  cases h : idxOfSub pat line <;> simp

theorem findFrom_shift (pat line : List Char) (s j : Nat) (h : findFrom pat line s = some j) :
    ∃ i, idxOfSub pat (line.drop s) = some i ∧ j = i + s := by
  unfold findFrom at h
  cases hi : idxOfSub pat (line.drop s) with
  | none => rw [hi] at h; cases h
  | some i =>
    rw [hi] at h
    simp only [Option.map] at h
    cases h
    exact ⟨i, rfl, rfl⟩

theorem idxOfSub_decomp (pat line : List Char) (i : Nat) (hp : pat ≠ [])
    (h : idxOfSub pat line = some i) :
    ∃ A B, line = A ++ pat ++ B ∧ A.length = i := by
  have hl := idxOfSub_some_leadsWith pat line i h
  obtain ⟨t, ht⟩ := (leadsWith_iff pat _).mp hl
  have hle : i ≤ line.length := by
    by_contra hgt
    push_neg at hgt
    have : line.drop i = [] := List.drop_eq_nil_of_le (le_of_lt hgt)
    rw [this] at ht
    cases pat with
    | nil => exact hp rfl
    | cons p ps => simp at ht
  refine ⟨line.take i, t, ?_, ?_⟩
  · conv_lhs => rw [← List.take_append_drop i line]
    rw [ht, List.append_assoc]
  · simpa using hle

theorem countDollar_append (a b : List Char) :
    countDollar (a ++ b) = countDollar a + countDollar b := by
  simp [countDollar, List.count_append]

theorem countDollar_cons (c : Char) (l : List Char) :
    countDollar (c :: l) = countDollar l + (if c = '$' then 1 else 0) := by
  simp [countDollar, List.count_cons, beq_iff_eq]

theorem countDollar_drop_le (n : Nat) (l : List Char) :
    countDollar (l.drop n) ≤ countDollar l := by
  exact List.Sublist.count_le (List.drop_sublist n l) '$'

theorem countDollar_eq_zero_iff (l : List Char) : countDollar l = 0 ↔ '$' ∉ l := by
  simp [countDollar, List.count_eq_zero]


theorem lookupVar_noDollar (vs : VarStack) (k v : List Char) (hvs : valuesNoDollar vs)
    (h : lookupVar vs k = some v) : '$' ∉ v := by
  unfold lookupVar at h
  cases hf : vs.find? (fun p => p.1 == upperL k) with
  | none => rw [hf] at h; cases h
  | some p =>
    rw [hf] at h
    simp only [Option.map] at h
    cases h
    exact hvs p (List.mem_of_find?_eq_some hf)

theorem lt_rstrip_length (line : List Char) (i : Nat) (c : Char) (B : List Char)
    (h : line.drop i = c :: B) (hc : pyIsSpace c = false) :
    i < (pyRstrip line).length := by
  by_contra hge
  push_neg at hge
  have hrl : (pyRstrip line).length = (line.reverse.dropWhile pyIsSpace).length := by
    simp [pyRstrip]
  set T := line.reverse.takeWhile pyIsSpace with hT
  set D := line.reverse.dropWhile pyIsSpace with hD
  have hsplit : line = D.reverse ++ T.reverse := by
    have h1 : line.reverse = T ++ D := (List.takeWhile_append_dropWhile ..).symm
    have h2 : line = line.reverse.reverse := (List.reverse_reverse line).symm
    rw [h2, h1, List.reverse_append]
  have hge2 : D.reverse.length ≤ i := by
    rw [hrl] at hge
    simpa using hge
  have hdrop2 : line.drop i = T.reverse.drop (i - D.reverse.length) := by
    conv_lhs => rw [hsplit]
    rw [List.drop_append_eq_append_drop]
    rw [List.drop_eq_nil_of_le hge2, List.nil_append]
  have hcmem : c ∈ T.reverse.drop (i - D.reverse.length) := by
    rw [← hdrop2, h]
    exact List.mem_cons_self c B
  have hcT : c ∈ T := by
    have h1 : c ∈ T.reverse := (List.drop_sublist _ _).subset hcmem
    simpa using h1
  have := List.mem_takeWhile_imp hcT
  rw [hc] at this
  cases this

theorem braceLoop_total (vs : VarStack) (orig : List Char) (hvs : valuesNoDollar vs) :
    ∀ f line, countDollar line < f →
      ∃ r, braceLoop vs orig f line = some r ∧
        ∀ out, r = .ok out → countDollar out ≤ countDollar line := by
  intro f
  induction f with
  | zero => intro line h; omega
  | succ g ih =>
    intro line hcount
    rw [braceLoop]
    cases h1 : findFrom dollarBraceP line 0 with
    | none =>
      exact ⟨.ok line, rfl, fun out ho => by cases ho; exact le_refl _⟩
    | some vstart =>
      dsimp only
      have h1i := h1
      rw [findFrom_zero] at h1i
      obtain ⟨A, B, hline, hA⟩ :=
        idxOfSub_decomp dollarBraceP line vstart (by simp [dollarBraceP]) h1i
      cases h2 : findFrom ['\x7d'] line (vstart + 2) with
      | none =>
        exact ⟨.error ⟨.unterminatedVar, ⟨orig, some line.length, some vstart, none⟩⟩, rfl,
          fun out ho => by cases ho⟩
      | some vend =>
        dsimp only
        obtain ⟨j, hj, hvend⟩ := findFrom_shift ['\x7d'] line (vstart + 2) vend h2
        have hdropB : line.drop (vstart + 2) = B := by
          rw [hline]
          have hre : A ++ dollarBraceP ++ B = (A ++ dollarBraceP) ++ B := by simp
          rw [hre]
          have hlen : (A ++ dollarBraceP).length = vstart + 2 := by
            simp [dollarBraceP]
            omega
          rw [← hlen, List.drop_left]
        rw [hdropB] at hj
        obtain ⟨C, D, hB, hC⟩ := idxOfSub_decomp ['\x7d'] B j (by simp) hj
        have hshape : line = A ++ '$' :: '\x7b' :: (C ++ '\x7d' :: D) := by
          rw [hline, hB]
          simp [dollarBraceP]
        have hvend2 : vend = A.length + 2 + C.length := by omega
        have hslice : sliceList line (vstart + 2) vend = C := by
          rw [hshape, ← hA, hvend2]
          exact slice_brace A C D
        have htake : line.take vstart = A := by
          rw [hshape, ← hA]
          exact take_of_append A _
        have hdropEnd : line.drop (vend + 1) = D := by
          rw [hshape, hvend2]
          exact drop_after_brace A C D
        have hcl : countDollar line = countDollar A + countDollar C + countDollar D + 1 := by
          rw [hshape]
          simp [countDollar_append, countDollar_cons]
          omega
        rw [hslice, htake, hdropEnd]
        cases hsp : splitFirstSub ['-'] C with
        | none =>
          dsimp only
          by_cases hv : validVarName C = true
          · rw [if_pos hv]
            cases hlk : lookupVar vs C with
            | some v =>
              have hvnd : '$' ∉ v := lookupVar_noDollar vs C v hvs hlk
              have hvz : countDollar v = 0 := (countDollar_eq_zero_iff v).mpr hvnd
              have hnew : countDollar (A ++ v ++ D) < g := by
                have e1 := countDollar_append (A ++ v) D
                have e2 := countDollar_append A v
                omega
              obtain ⟨r, hr, hout⟩ := ih (A ++ v ++ D) hnew
              refine ⟨r, hr, fun out ho => ?_⟩
              have h3 := hout out ho
              have h4 := countDollar_append (A ++ v) D
              have h5 := countDollar_append A v
              omega
            | none =>
              exact ⟨.error _, rfl, fun out ho => by cases ho⟩
          · rw [if_neg hv]
            exact ⟨.error _, rfl, fun out ho => by cases ho⟩
        | some kd =>
          obtain ⟨k, d⟩ := kd
          have hd : countDollar d ≤ countDollar C := by
            unfold splitFirstSub at hsp
            cases hidx : idxOfSub ['-'] C with
            | none => rw [hidx] at hsp; cases hsp
            | some i =>
              rw [hidx] at hsp
              simp only [Option.some.injEq, Prod.mk.injEq] at hsp
              obtain ⟨hk, hdd⟩ := hsp
              rw [← hdd]
              exact countDollar_drop_le _ C
          dsimp only
          by_cases hv : validVarName k = true
          · rw [if_pos hv]
            cases hlk : lookupVar vs k with
            | some v =>
              have hvnd : '$' ∉ v := lookupVar_noDollar vs k v hvs hlk
              have hvz : countDollar v = 0 := (countDollar_eq_zero_iff v).mpr hvnd
              have hnew : countDollar (A ++ v ++ D) < g := by
                have e1 := countDollar_append (A ++ v) D
                have e2 := countDollar_append A v
                omega
              obtain ⟨r, hr, hout⟩ := ih (A ++ v ++ D) hnew
              refine ⟨r, hr, fun out ho => ?_⟩
              have h3 := hout out ho
              have h4 := countDollar_append (A ++ v) D
              have h5 := countDollar_append A v
              omega
            | none =>
              have hnew : countDollar (A ++ d ++ D) < g := by
                have e1 := countDollar_append (A ++ d) D
                have e2 := countDollar_append A d
                omega
              obtain ⟨r, hr, hout⟩ := ih (A ++ d ++ D) hnew
              refine ⟨r, hr, fun out ho => ?_⟩
              have h3 := hout out ho
              have h4 := countDollar_append (A ++ d) D
              have h5 := countDollar_append A d
              omega
          · rw [if_neg hv]
            exact ⟨.error _, rfl, fun out ho => by cases ho⟩

theorem bareLoop_total (vs : VarStack) (orig : List Char) (hvs : valuesNoDollar vs) :
    ∀ f line, countDollar line < f →
      ∃ r, bareLoop vs orig f line = some r ∧
        ∀ out, r = .ok out → countDollar out ≤ countDollar line := by
  intro f
  induction f with
  | zero => intro line h; omega
  | succ g ih =>
    intro line hcount
    rw [bareLoop]
    cases h1 : findFrom ['$'] line 0 with
    | none =>
      exact ⟨.ok line, rfl, fun out ho => by cases ho; exact le_refl _⟩
    | some vstart =>
      dsimp only
      have h1i := h1
      rw [findFrom_zero] at h1i
      obtain ⟨A, B, hline, hA⟩ := idxOfSub_decomp ['$'] line vstart (by simp) h1i
      have hshape : line = A ++ '$' :: B := by
        rw [hline]
        simp
      have htake : line.take vstart = A := by
        rw [hshape, ← hA]
        exact take_of_append A _
      have hdropB : line.drop (vstart + 1) = B := by
        rw [hshape]
        have hre : A ++ '$' :: B = (A ++ ['$']) ++ B := by simp
        rw [hre]
        have hlen : (A ++ ['$']).length = vstart + 1 := by
          simp
          omega
        rw [← hlen, List.drop_left]
      have hcl : countDollar line = countDollar A + countDollar B + 1 := by
        rw [hshape]
        simp [countDollar_append, countDollar_cons]
        omega
      cases h2 : findFrom [' '] line (vstart + 1) with
      | some j =>
        dsimp only
        obtain ⟨i, hi, hij⟩ := findFrom_shift [' '] line (vstart + 1) j h2
        have hvle : vstart + 1 ≤ j := by omega
        have hdle : countDollar (line.drop j) ≤ countDollar B := by
          have hdd : line.drop j = (line.drop (vstart + 1)).drop (j - (vstart + 1)) := by
            rw [List.drop_drop]
            congr 1
            omega
          rw [hdd, hdropB]
          exact countDollar_drop_le _ B
        rw [htake]
        by_cases hv : validVarName (sliceList line (vstart + 1) j) = true
        · rw [if_pos hv]
          cases hlk : lookupVar vs (sliceList line (vstart + 1) j) with
          | some v =>
            have hvnd : '$' ∉ v := lookupVar_noDollar vs _ v hvs hlk
            have hvz : countDollar v = 0 := (countDollar_eq_zero_iff v).mpr hvnd
            have hnew : countDollar (A ++ v ++ line.drop j) < g := by
              have e1 := countDollar_append (A ++ v) (line.drop j)
              have e2 := countDollar_append A v
              omega
            obtain ⟨r, hr, hout⟩ := ih (A ++ v ++ line.drop j) hnew
            refine ⟨r, hr, fun out ho => ?_⟩
            have h3 := hout out ho
            have h4 := countDollar_append (A ++ v) (line.drop j)
            have h5 := countDollar_append A v
            omega
          | none =>
            exact ⟨.error _, rfl, fun out ho => by cases ho⟩
        · rw [if_neg hv]
          exact ⟨.error _, rfl, fun out ho => by cases ho⟩
      | none =>
        dsimp only
        have hdropA : line.drop vstart = '$' :: B := by
          rw [hshape, ← hA]
          have hre : A ++ '$' :: B = A ++ ('$' :: B) := rfl
          rw [hre]
          exact List.drop_left A ('$' :: B)
        have hvle : vstart + 1 ≤ (pyRstrip line).length :=
          lt_rstrip_length line vstart '$' B hdropA (by decide)
        have hdle : countDollar (line.drop (pyRstrip line).length) ≤ countDollar B := by
          have hdd : line.drop (pyRstrip line).length =
              (line.drop (vstart + 1)).drop ((pyRstrip line).length - (vstart + 1)) := by
            rw [List.drop_drop]
            congr 1
            omega
          rw [hdd, hdropB]
          exact countDollar_drop_le _ B
        rw [htake]
        by_cases hv : validVarName (sliceList line (vstart + 1) (pyRstrip line).length) = true
        · rw [if_pos hv]
          cases hlk : lookupVar vs (sliceList line (vstart + 1) (pyRstrip line).length) with
          | some v =>
            have hvnd : '$' ∉ v := lookupVar_noDollar vs _ v hvs hlk
            have hvz : countDollar v = 0 := (countDollar_eq_zero_iff v).mpr hvnd
            have hnew : countDollar (A ++ v ++ line.drop (pyRstrip line).length) < g := by
              have e1 := countDollar_append (A ++ v) (line.drop (pyRstrip line).length)
              have e2 := countDollar_append A v
              omega
            obtain ⟨r, hr, hout⟩ := ih (A ++ v ++ line.drop (pyRstrip line).length) hnew
            refine ⟨r, hr, fun out ho => ?_⟩
            have h3 := hout out ho
            have h4 := countDollar_append (A ++ v) (line.drop (pyRstrip line).length)
            have h5 := countDollar_append A v
            omega
          | none =>
            exact ⟨.error _, rfl, fun out ho => by cases ho⟩
        · rw [if_neg hv]
          exact ⟨.error _, rfl, fun out ho => by cases ho⟩


theorem bareLoop_selfRef_none : ∀ f, bareLoop selfRefVs ['$', 'X'] f ['$', 'X'] = none := by
  intro f
  induction f with
  | zero => rfl
  | succ g ih =>
    have hstep : bareLoop selfRefVs ['$', 'X'] (g + 1) ['$', 'X'] =
        bareLoop selfRefVs ['$', 'X'] g ['$', 'X'] := rfl
    rw [hstep, ih]

/-- C10.  With a variable table whose stored values contain no `$`, both
substitution passes terminate within `countDollar line + 1` iterations on
every line (each successful substitution strictly decreases the number of
`$` characters); and absent that precondition the binding `X ↦ $X` makes the
bare-form pass loop forever on the line `$X` (no amount of fuel produces a
result). -/
theorem claim_C10 :
    (∀ vs line, valuesNoDollar vs →
      resolveVariablesF vs (countDollar line + 1) line ≠ none)
  ∧ (∀ f, resolveVariablesF selfRefVs f ['$', 'X'] = none) := by
  constructor
  · intro vs line hvs h
    unfold resolveVariablesF at h
    obtain ⟨r, hr, hout⟩ := braceLoop_total vs line hvs (countDollar line + 1) line (by omega)
    rw [hr] at h
    cases r with
    | error e => exact Option.noConfusion h
    | ok out =>
      dsimp only at h
      have hble : countDollar out ≤ countDollar line := hout out rfl
      obtain ⟨r2, hr2, _⟩ :=
        bareLoop_total vs line hvs (countDollar line + 1) out (by omega)
      rw [hr2] at h
      exact Option.noConfusion h
  · intro f
    cases f with
    | zero => rfl
    | succ g =>
      unfold resolveVariablesF
      have hbrace : braceLoop selfRefVs ['$', 'X'] (g + 1) ['$', 'X'] =
          some (.ok ['$', 'X']) := rfl
      rw [hbrace]
      exact bareLoop_selfRef_none (g + 1)

/-- C10 witness: the termination bound applied to a concrete table and line. -/
theorem claim_C10_witness :
    resolveVariablesF [(['A'], ⟨['1'], []⟩)] (countDollar ['$', 'A'] + 1) ['$', 'A'] ≠ none :=
  claim_C10.1 [(['A'], ⟨['1'], []⟩)] ['$', 'A'] (by
    intro q hq
    rcases List.mem_singleton.mp hq with rfl
    decide)

theorem wordChar_not_space (c : Char) (hw : isWordChar c = true) : pyIsSpace c = false := by
  cases hs : pyIsSpace c with
  | false => rfl
  | true =>
    exfalso
    simp only [pyIsSpace, Bool.or_eq_true, beq_iff_eq] at hs
    rcases hs with ((((h | h) | h) | h) | h) | h <;> subst h <;> exact absurd hw (by decide)

theorem not_mem_of_all_word (X : List Char) (hXw : ∀ c ∈ X, isWordChar c = true)
    (d : Char) (hd : isWordChar d = false) : d ∉ X := by
  intro hm
  rw [hXw d hm] at hd
  cases hd

theorem resolveVariablesF_noDollar (vs : VarStack) (f : Nat) (line : List Char)
    (h : '$' ∉ line) : resolveVariablesF vs (f + 1) line = some (.ok line) := by
  unfold resolveVariablesF
  rw [braceLoop_exit vs line f line h]
  dsimp only
  rw [bareLoop_exit vs line f line h]

theorem idxOfSub_dollarBrace_none (B : List Char) (hB : '$' ∉ B)
    (hBh : ∀ b, B.head? = some b → b ≠ '\x7b') :
    ∀ A, '$' ∉ A → idxOfSub dollarBraceP (A ++ '$' :: B) = none := by
  intro A
  induction A with
  | nil =>
    intro _
    rw [List.nil_append]
    have hlead : leadsWith dollarBraceP ('$' :: B) = false := by
      cases B with
      | nil => rfl
      | cons b bs =>
        have hb := hBh b rfl
        simp [dollarBraceP, leadsWith, hb]
        intro h
        exact absurd h.symm hb
    rw [idxOfSub, hlead]
    rw [if_neg (by simp)]
    rw [show dollarBraceP = '$' :: ['\x7b'] from rfl,
      idxOfSub_none_of_not_mem '$' ['\x7b'] B hB]
    rfl
  | cons a as ih =>
    intro hA
    have ha : a ≠ '$' := fun h => hA (h ▸ List.mem_cons_self a as)
    have has : '$' ∉ as := fun h => hA (List.mem_cons_of_mem a h)
    rw [List.cons_append, idxOfSub]
    have hlead : leadsWith dollarBraceP (a :: (as ++ '$' :: B)) = false := by
      simp [dollarBraceP, leadsWith]
      intro h
      exact absurd h.symm ha
    rw [hlead, ih has]
    rfl

theorem resolve_brace_simple (vs : VarStack) (f : Nat) (pre X post v : List Char)
    (hpre : '$' ∉ pre) (hpost : '$' ∉ post)
    (hvalid : validVarName X = true) (hXh : '-' ∉ X) (hXb : '\x7d' ∉ X)
    (hlook : lookupVar vs X = some v) (hv : '$' ∉ v) :
    resolveVariablesF vs (f + 2) (pre ++ '$' :: '\x7b' :: (X ++ '\x7d' :: post)) =
      some (.ok (pre ++ v ++ post)) := by
  have hnew : '$' ∉ pre ++ v ++ post := by
    intro hm
    rcases List.mem_append.mp hm with h | h
    · rcases List.mem_append.mp h with h | h
      · exact hpre h
      · exact hv h
    · exact hpost h
  unfold resolveVariablesF
  rw [show f + 2 = (f + 1) + 1 from rfl,
    braceLoop_cons vs _ (f + 1) pre X post hpre hXb]
  rw [splitFirstSub_none '-' X hXh]
  dsimp only
  rw [hvalid, if_pos rfl, hlook]
  dsimp only
  rw [braceLoop_exit vs _ f _ hnew]
  dsimp only
  rw [bareLoop_exit vs _ (f + 1) _ hnew]

theorem resolve_bare_simple (vs : VarStack) (f : Nat) (pre X post v : List Char)
    (hpre : '$' ∉ pre) (hpost : '$' ∉ post)
    (hXw : ∀ c ∈ X, isWordChar c = true) (hX : X ≠ [])
    (hvalid : validVarName X = true)
    (hlook : lookupVar vs X = some v) (hv : '$' ∉ v) :
    resolveVariablesF vs (f + 2) (pre ++ '$' :: (X ++ ' ' :: post)) =
      some (.ok (pre ++ v ++ ' ' :: post)) := by
  have hXd : '$' ∉ X := not_mem_of_all_word X hXw '$' (by decide)
  have hXs : ' ' ∉ X := not_mem_of_all_word X hXw ' ' (by decide)
  have hnew : '$' ∉ pre ++ v ++ ' ' :: post := by
    intro hm
    rcases List.mem_append.mp hm with h | h
    · rcases List.mem_append.mp h with h | h
      · exact hpre h
      · exact hv h
    · rcases List.mem_cons.mp h with h | h
      · cases h
      · exact hpost h
  have hnodb : idxOfSub dollarBraceP (pre ++ '$' :: (X ++ ' ' :: post)) = none := by
    apply idxOfSub_dollarBrace_none
    · intro hm
      rcases List.mem_append.mp hm with h | h
      · exact hXd h
      · rcases List.mem_cons.mp h with h | h
        · cases h
        · exact hpost h
    · intro b hb
      cases X with
      | nil => exact absurd rfl hX
      | cons x xs =>
        intro hxb
        have h2 : x = b := by simpa using hb
        have h3 := hXw x (List.mem_cons_self _ _)
        rw [h2, hxb] at h3
        exact absurd h3 (by decide)
    · exact hpre
  unfold resolveVariablesF
  have hbr : braceLoop vs (pre ++ '$' :: (X ++ ' ' :: post)) (f + 2)
      (pre ++ '$' :: (X ++ ' ' :: post)) = some (.ok (pre ++ '$' :: (X ++ ' ' :: post))) := by
    rw [show f + 2 = (f + 1) + 1 from rfl, braceLoop]
    rw [findFrom_zero, hnodb]
  rw [hbr]
  dsimp only
  rw [show f + 2 = (f + 1) + 1 from rfl,
    bareLoop_subst vs _ (f + 1) pre X post v hpre hXs hvalid hlook]
  rw [bareLoop_exit vs _ f _ hnew]

theorem takeWhile_cons_false (p : Char → Bool) (x : Char) (xs : List Char) (h : p x = false) :
    (x :: xs).takeWhile p = [] := by
  simp [List.takeWhile_cons, h]

theorem takeWhile_cons_true (p : Char → Bool) (x : Char) (xs : List Char) (h : p x = true) :
    (x :: xs).takeWhile p = x :: xs.takeWhile p := by
  simp [List.takeWhile_cons, h]

theorem takeWhile_all_append (p : Char → Bool) :
    ∀ X rest : List Char, (∀ c ∈ X, p c = true) →
      (X ++ rest).takeWhile p = X ++ rest.takeWhile p := by
  intro X
  induction X with
  | nil => intro rest _; simp
  | cons x xs ih =>
    intro rest hall
    rw [List.cons_append, takeWhile_cons_true p x _ (hall x (List.mem_cons_self _ _))]
    rw [ih rest (fun c hc => hall c (List.mem_cons_of_mem x hc))]
    rfl

theorem matchConditional_set (rest : List Char) :
    matchConditional ('@' :: 'S' :: 'E' :: 'T' :: rest) = none := rfl

theorem matchSet_shape (X V : List Char) (hX : X ≠ [])
    (hXw : ∀ c ∈ X, isWordChar c = true) (hV : V ≠ [])
    (hV0 : ∀ c, V.head? = some c → pyIsSpace c = false) :
    matchSet ('@' :: 'S' :: 'E' :: 'T' :: ' ' :: (X ++ ' ' :: V)) = some (X, V) := by
  obtain ⟨x, xs, rfl⟩ : ∃ x xs, X = x :: xs := by
    cases X with
    | nil => exact absurd rfl hX
    | cons a b => exact ⟨a, b, rfl⟩
  obtain ⟨v0, vr, rfl⟩ : ∃ v0 vr, V = v0 :: vr := by
    cases V with
    | nil => exact absurd rfl hV
    | cons a b => exact ⟨a, b, rfl⟩
  have hx : pyIsSpace x = false := wordChar_not_space x (hXw x (List.mem_cons_self _ _))
  have hv0 : pyIsSpace v0 = false := hV0 v0 rfl
  have e4 : (' ' :: ((x :: xs) ++ ' ' :: v0 :: vr)).takeWhile pyIsSpace = [' '] := by
    rw [takeWhile_cons_true pyIsSpace ' ' _ (by decide), List.cons_append,
      takeWhile_cons_false pyIsSpace x _ hx]
  have e5 : ((x :: xs) ++ ' ' :: v0 :: vr).takeWhile isWordChar = x :: xs := by
    rw [takeWhile_all_append isWordChar (x :: xs) _ hXw,
      takeWhile_cons_false isWordChar ' ' _ (by decide), List.append_nil]
  have e7 : (' ' :: v0 :: vr).takeWhile pyIsSpace = [' '] := by
    rw [takeWhile_cons_true pyIsSpace ' ' _ (by decide),
      takeWhile_cons_false pyIsSpace v0 _ hv0]
  unfold matchSet
  rw [show ('@' :: 'S' :: 'E' :: 'T' :: ' ' :: ((x :: xs) ++ ' ' :: v0 :: vr)).takeWhile pyIsSpace
      = ([] : List Char) from rfl]
  simp only [List.length_nil, List.drop_zero]
  rw [show leadsWithUpper ['S', 'E', 'T']
      ('S' :: 'E' :: 'T' :: ' ' :: ((x :: xs) ++ ' ' :: v0 :: vr)) = true from rfl, if_pos rfl]
  rw [show List.drop 3 ('S' :: 'E' :: 'T' :: ' ' :: ((x :: xs) ++ ' ' :: v0 :: vr))
      = ' ' :: ((x :: xs) ++ ' ' :: v0 :: vr) from rfl]
  rw [e4]
  rw [if_neg (by decide)]
  rw [show (' ' :: ((x :: xs) ++ ' ' :: v0 :: vr)).drop ([' '] : List Char).length
      = (x :: xs) ++ ' ' :: v0 :: vr from rfl]
  rw [e5]
  rw [if_neg (by simp)]
  rw [List.drop_left (x :: xs) (' ' :: v0 :: vr)]
  rw [e7]
  rw [if_neg (by decide)]
  rfl

theorem find?_map_replace (k : List Char) (w : PVar) :
    ∀ vs : VarStack, (vs.find? (fun p => p.1 == k)).isSome = true →
      ((vs.map (fun p => if p.1 == k then (k, w) else p)).find? (fun p => p.1 == k)) =
        some (k, w) := by
  intro vs
  induction vs with
  | nil => intro h; cases h
  | cons p ps ih =>
    intro h
    cases hp : (p.1 == k) with
    | true =>
      simp only [List.map_cons, if_pos hp]
      simp [List.find?]
    | false =>
      simp only [List.map_cons]
      rw [if_neg (by simp [hp])]
      simp only [List.find?, hp] at h ⊢
      exact ih h

theorem lookupVar_setVar (vs : VarStack) (key : List Char) (w : PVar) :
    lookupVar (setVar vs (upperL key) w) key = some w.value := by
  unfold lookupVar setVar
  by_cases hf : (vs.find? (fun p => p.1 == upperL key)).isSome = true
  · rw [if_pos hf, find?_map_replace (upperL key) w vs hf]
    rfl
  · rw [if_neg hf]
    rw [List.find?_append]
    have hnone : vs.find? (fun p => p.1 == upperL key) = none := by
      cases h : vs.find? (fun p => p.1 == upperL key) with
      | none => rfl
      | some q => rw [h] at hf; exact absurd rfl hf
    rw [hnone]
    simp

theorem ppStep_directive (base : List Char) (fuel : Nat) (st : PPState) (rest : List Char) :
    ppStep base fuel st ('@' :: rest) = parseInstr base fuel st ('@' :: rest) := by
  unfold ppStep
  dsimp only
  rw [if_neg (by simp), if_pos rfl]

theorem ppStep_plain (base : List Char) (fuel : Nat) (st : PPState) (c : Char)
    (rest : List Char) (h1 : c ≠ '!') (h2 : c ≠ '#') (h3 : c ≠ '@')
    (hcb : st.condBlock = none) :
    ppStep base fuel st (c :: rest) = ppEmit fuel st (c :: rest) := by
  unfold ppStep
  dsimp only
  rw [if_neg (by simp [h1, h2]), if_neg h3, hcb]

theorem ppRunF_nil (fs : FileSys) (base : List Char) (fuel : Nat) (st : PPState) :
    ppRunF fs base fuel st [] = (match st.condBlock with
      | some cb => some (.error ⟨.unclosedBlock, ⟨[], none, none, some cb.ctxLine⟩⟩)
      | none => some (.ok [])) := by
  cases fuel with
  | zero => rfl
  | succ g => rfl

theorem ppRunF_pop (fs : FileSys) (base : List Char) (fuel : Nat) (st : PPState)
    (stk : List (List (List Char))) :
    ppRunF fs base (fuel + 1) st ([] :: stk) = ppRunF fs base fuel st stk := rfl

theorem ppRunF_cons (fs : FileSys) (base : List Char) (fuel : Nat) (st : PPState)
    (l : List Char) (ls : List (List Char)) (stk : List (List (List Char))) :
    ppRunF fs base (fuel + 1) st ((l :: ls) :: stk) =
      (match ppStep base (fuel + 1) st l with
      | none => none
      | some (.error e) => some (.error e)
      | some (.ok (.skip st2)) => ppRunF fs base fuel st2 (ls :: stk)
      | some (.ok (.emit st2 out)) =>
        match ppRunF fs base fuel st2 (ls :: stk) with
        | some (.ok rest) => some (.ok (out :: rest))
        | r => r
      | some (.ok (.include st2 path)) =>
        match fsLookup fs path with
        | none => some (.error ⟨.ioError path, mkCtx l⟩)
        | some body => ppRunF fs base fuel st2 (body :: ls :: stk)) := rfl

theorem ppStep_set (base : List Char) (f : Nat) (vs : VarStack) (X V : List Char)
    (hX : X ≠ []) (hXw : ∀ c ∈ X, isWordChar c = true) (hXv : validVarName X = true)
    (hV : V ≠ []) (hV0 : ∀ c, V.head? = some c → pyIsSpace c = false) (hVd : '$' ∉ V) :
    ppStep base (f + 1) ⟨vs, none⟩ ('@' :: 'S' :: 'E' :: 'T' :: ' ' :: (X ++ ' ' :: V)) =
      some (.ok (.skip ⟨setVar vs (upperL X)
        ⟨V, '@' :: 'S' :: 'E' :: 'T' :: ' ' :: (X ++ ' ' :: V)⟩, none⟩)) := by
  rw [ppStep_directive]
  unfold parseInstr
  rw [matchConditional_set]
  dsimp only
  unfold parseInstrRest
  rw [matchSet_shape X V hX hXw hV hV0]
  dsimp only
  rw [resolveVariablesF_noDollar vs f V hVd]
  dsimp only
  rw [hXv, if_pos rfl]

theorem ppStep_emit_of_resolve (base : List Char) (fuel : Nat) (st : PPState)
    (line out : List Char) (hcb : st.condBlock = none) (hne : line ≠ [])
    (hhead : ∀ c, line.head? = some c → c ≠ '@' ∧ c ≠ '!' ∧ c ≠ '#')
    (hres : resolveVariablesF st.varstack fuel line = some (.ok out)) :
    ppStep base fuel st line = some (.ok (.emit st out)) := by
  cases line with
  | nil => exact absurd rfl hne
  | cons c cs =>
    obtain ⟨h1, h2, h3⟩ := hhead c rfl
    rw [ppStep_plain base fuel st c cs h2 h3 h1 hcb]
    unfold ppEmit
    rw [hres]

/-- C3.  After `@SET X V` (with no intervening redefinition), a later line
referencing `${X}` resolves with exactly `V` substituted for the reference
span, and a later line referencing a bare `$X` terminated by a space
likewise substitutes exactly `V`, preserving all surrounding text including
the terminating space delimiter. -/
theorem claim_C3 (fs : FileSys) (base : List Char) (f : Nat) (vs : VarStack)
    (X V pre1 post1 pre2 post2 : List Char)
    (hX : X ≠ []) (hXw : ∀ c ∈ X, isWordChar c = true) (hXv : validVarName X = true)
    (hV : V ≠ []) (hV0 : ∀ c, V.head? = some c → pyIsSpace c = false) (hVd : '$' ∉ V)
    (hpre1 : '$' ∉ pre1) (hpost1 : '$' ∉ post1) (hpre2 : '$' ∉ pre2) (hpost2 : '$' ∉ post2)
    (hh1 : ∀ c, pre1.head? = some c → c ≠ '@' ∧ c ≠ '!' ∧ c ≠ '#')
    (hh2 : ∀ c, pre2.head? = some c → c ≠ '@' ∧ c ≠ '!' ∧ c ≠ '#') :
    ppRunF fs base (f + 4) ⟨vs, none⟩
        [['@' :: 'S' :: 'E' :: 'T' :: ' ' :: (X ++ ' ' :: V),
          pre1 ++ '$' :: '\x7b' :: (X ++ '\x7d' :: post1),
          pre2 ++ '$' :: (X ++ ' ' :: post2)]] =
      some (.ok [pre1 ++ V ++ post1, pre2 ++ V ++ ' ' :: post2]) := by
  have hXh : '-' ∉ X := not_mem_of_all_word X hXw '-' (by decide)
  have hXb : '\x7d' ∉ X := not_mem_of_all_word X hXw '\x7d' (by decide)
  have hlook : lookupVar (setVar vs (upperL X)
      ⟨V, '@' :: 'S' :: 'E' :: 'T' :: ' ' :: (X ++ ' ' :: V)⟩) X = some V :=
    lookupVar_setVar vs X _
  have hhead1 : ∀ c, (pre1 ++ '$' :: '\x7b' :: (X ++ '\x7d' :: post1)).head? = some c →
      c ≠ '@' ∧ c ≠ '!' ∧ c ≠ '#' := by
    cases pre1 with
    | nil =>
      intro c hc
      have hcd : '$' = c := by simpa using hc
      subst hcd
      exact ⟨by decide, by decide, by decide⟩
    | cons d ds =>
      intro c hc
      have hcd : d = c := by simpa using hc
      subst hcd
      exact hh1 d rfl
  have hhead2 : ∀ c, (pre2 ++ '$' :: (X ++ ' ' :: post2)).head? = some c →
      c ≠ '@' ∧ c ≠ '!' ∧ c ≠ '#' := by
    cases pre2 with
    | nil =>
      intro c hc
      have hcd : '$' = c := by simpa using hc
      subst hcd
      exact ⟨by decide, by decide, by decide⟩
    | cons d ds =>
      intro c hc
      have hcd : d = c := by simpa using hc
      subst hcd
      exact hh2 d rfl
  have hne1 : pre1 ++ '$' :: '\x7b' :: (X ++ '\x7d' :: post1) ≠ [] := by simp
  have hne2 : pre2 ++ '$' :: (X ++ ' ' :: post2) ≠ [] := by simp
  rw [show f + 4 = (f + 3) + 1 from rfl, ppRunF_cons]
  rw [ppStep_set base (f + 3) vs X V hX hXw hXv hV hV0 hVd]
  dsimp only
  have hres1 : resolveVariablesF
      (setVar vs (upperL X) ⟨V, '@' :: 'S' :: 'E' :: 'T' :: ' ' :: (X ++ ' ' :: V)⟩)
      (f + 2 + 1) (pre1 ++ '$' :: '\x7b' :: (X ++ '\x7d' :: post1)) =
      some (.ok (pre1 ++ V ++ post1)) := by
    rw [show f + 2 + 1 = (f + 1) + 2 from rfl]
    exact resolve_brace_simple _ (f + 1) pre1 X post1 V hpre1 hpost1 hXv hXh hXb hlook hVd
  rw [show f + 3 = (f + 2) + 1 from rfl, ppRunF_cons]
  rw [ppStep_emit_of_resolve base (f + 2 + 1)
    ⟨setVar vs (upperL X) ⟨V, '@' :: 'S' :: 'E' :: 'T' :: ' ' :: (X ++ ' ' :: V)⟩, none⟩
    (pre1 ++ '$' :: '\x7b' :: (X ++ '\x7d' :: post1)) (pre1 ++ V ++ post1)
    rfl hne1 hhead1 hres1]
  dsimp only
  have hres2 : resolveVariablesF
      (setVar vs (upperL X) ⟨V, '@' :: 'S' :: 'E' :: 'T' :: ' ' :: (X ++ ' ' :: V)⟩)
      (f + 1 + 1) (pre2 ++ '$' :: (X ++ ' ' :: post2)) =
      some (.ok (pre2 ++ V ++ ' ' :: post2)) := by
    rw [show f + 1 + 1 = f + 2 from rfl]
    exact resolve_bare_simple _ f pre2 X post2 V hpre2 hpost2 hXw hX hXv hlook hVd
  have hrun3 : ppRunF fs base (f + 2)
      ⟨setVar vs (upperL X) ⟨V, '@' :: 'S' :: 'E' :: 'T' :: ' ' :: (X ++ ' ' :: V)⟩, none⟩
      [[pre2 ++ '$' :: (X ++ ' ' :: post2)]] =
      some (.ok [pre2 ++ V ++ ' ' :: post2]) := by
    rw [show f + 2 = (f + 1) + 1 from rfl, ppRunF_cons]
    rw [ppStep_emit_of_resolve base (f + 1 + 1)
      ⟨setVar vs (upperL X) ⟨V, '@' :: 'S' :: 'E' :: 'T' :: ' ' :: (X ++ ' ' :: V)⟩, none⟩
      (pre2 ++ '$' :: (X ++ ' ' :: post2)) (pre2 ++ V ++ ' ' :: post2)
      rfl hne2 hhead2 hres2]
    dsimp only
    rw [ppRunF_pop, ppRunF_nil]
  rw [hrun3]

/-- C3 witness: `@SET AB 42` followed by `x ${AB} y` and `z $AB w`. -/
theorem claim_C3_witness :
    ppRunF [] [] 4 ⟨[], none⟩
        [['@' :: 'S' :: 'E' :: 'T' :: ' ' :: (['A', 'B'] ++ ' ' :: ['4', '2']),
          ['x', ' '] ++ '$' :: '\x7b' :: (['A', 'B'] ++ '\x7d' :: [' ', 'y']),
          ['z', ' '] ++ '$' :: (['A', 'B'] ++ ' ' :: ['w'])]] =
      some (.ok [['x', ' '] ++ ['4', '2'] ++ [' ', 'y'],
        ['z', ' '] ++ ['4', '2'] ++ ' ' :: ['w']]) :=
  claim_C3 [] [] 0 [] ['A', 'B'] ['4', '2'] ['x', ' '] [' ', 'y'] ['z', ' '] ['w']
    (by decide) (by decide) (by decide) (by decide)
    (fun c hc => by cases hc; decide) (by decide)
    (by decide) (by decide) (by decide) (by decide)
    (fun c hc => by cases hc; exact ⟨by decide, by decide, by decide⟩)
    (fun c hc => by cases hc; exact ⟨by decide, by decide, by decide⟩)

theorem ppStep_skip_false (base : List Char) (f : Nat) (st : PPState) (line : List Char)
    (cb : CondBlock) (hcb : st.condBlock = some cb) (hfalse : cb.condition = false)
    (hm : matchConditional line = none) :
    ppStep base f st line = some (.ok (.skip st)) := by
  cases line with
  | nil => rfl
  | cons c cs =>
    by_cases h1 : c = '!' ∨ c = '#'
    · unfold ppStep
      dsimp only
      rw [if_pos h1]
    · by_cases h2 : c = '@'
      · subst h2
        rw [ppStep_directive]
        unfold parseInstr
        rw [hm]
        dsimp only
        rw [hcb]
        dsimp only
        rw [hfalse]
        rfl
      · unfold ppStep
        dsimp only
        rw [if_neg h1, if_neg h2, hcb]
        dsimp only
        rw [hfalse]
        rfl

/-- C6 counterexample: with a false conditional block open, the line `@IF 1`
is not skipped — the handler raises a nested-`@IF` error (contradicting the
claim that every directive other than a matching `@ENDIF` is skipped without
an error while the block is false). -/
theorem claim_C6_counterexample :
    ppStep [] 1 ⟨[], some ⟨false, ['@', 'I', 'F', ' ', '0']⟩⟩ ['@', 'I', 'F', ' ', '1'] =
      some (.error ⟨.nestedIf,
        ⟨['@', 'I', 'F', ' ', '1'], none, none, some ['@', 'I', 'F', ' ', '0']⟩⟩) := rfl

/-- C6 as amended: while the open block's condition is false, every line
that does not match the `@IF`/`@ENDIF` pattern is skipped without further
interpretation — an `@`-directive line (`@SET`, `@INCLUDE`, or unknown)
leaves the state unchanged, raises nothing and opens no file, and a
non-directive line is not emitted; a matching well-formed `@ENDIF` closes
the block; however an `@IF` line still raises a nested-`@IF` error (see the
counterexample). -/
theorem claim_C6 (base : List Char) (f : Nat) (st : PPState) (line : List Char)
    (cb : CondBlock) (hcb : st.condBlock = some cb) (hfalse : cb.condition = false) :
    (matchConditional line = none → ppStep base f st line = some (.ok (.skip st)))
  ∧ (∀ c i rest, line = '@' :: rest → matchConditional line = some (.endifStmt, c, i) →
      pyStripWs c = [] →
      ppStep base f st line = some (.ok (.skip ⟨st.varstack, none⟩))) := by
  constructor
  · intro hm
    exact ppStep_skip_false base f st line cb hcb hfalse hm
  · intro c i rest hline hm hstrip
    subst hline
    rw [ppStep_directive]
    unfold parseInstr
    rw [hm]
    dsimp only
    rw [hcb]
    dsimp only
    rw [hstrip]
    rw [if_neg (by simp)]

/-- C6 witness for the amended claim: an unknown directive `@XYZ` inside a
false block is skipped with the state unchanged. -/
theorem claim_C6_witness :
    ppStep [] 1 ⟨[], some ⟨false, ['@', 'I', 'F', ' ', '0']⟩⟩ ['@', 'X', 'Y', 'Z'] =
      some (.ok (.skip ⟨[], some ⟨false, ['@', 'I', 'F', ' ', '0']⟩⟩)) :=
  (claim_C6 [] 1 ⟨[], some ⟨false, ['@', 'I', 'F', ' ', '0']⟩⟩ ['@', 'X', 'Y', 'Z']
    ⟨false, ['@', 'I', 'F', ' ', '0']⟩ rfl rfl).1 rfl

/-- C7.  An `@IF` line while any conditional block is open raises a
nested-`@IF` error whose reference line is the opening `@IF`, regardless of
either condition's truth value; an `@ENDIF` line with no block open raises
an error. -/
theorem claim_C7 :
    (∀ base f st line c i cb, matchConditional line = some (.ifStmt, c, i) →
      st.condBlock = some cb →
      parseInstr base f st line =
        some (.error ⟨.nestedIf, ⟨line, none, none, some cb.ctxLine⟩⟩))
  ∧ (∀ base f st line c i, matchConditional line = some (.endifStmt, c, i) →
      st.condBlock = none →
      parseInstr base f st line = some (.error ⟨.endifWithoutIf, mkCtx line⟩)) := by
  constructor
  · intro base f st line c i cb hm hcb
    unfold parseInstr
    rw [hm]
    dsimp only
    rw [hcb]
  · intro base f st line c i hm hcb
    unfold parseInstr
    rw [hm]
    dsimp only
    rw [hcb]

/-- C7 witness: nested `@IF 0` under an open true block errors with the
opening line referenced; `@ENDIF` with nothing open errors. -/
theorem claim_C7_witness :
    parseInstr [] 1 ⟨[], some ⟨true, ['@', 'I', 'F', ' ', '1']⟩⟩ ['@', 'I', 'F', ' ', '0'] =
      some (.error ⟨.nestedIf,
        ⟨['@', 'I', 'F', ' ', '0'], none, none, some ['@', 'I', 'F', ' ', '1']⟩⟩)
  ∧ parseInstr [] 1 ⟨[], none⟩ ['@', 'E', 'N', 'D', 'I', 'F'] =
      some (.error ⟨.endifWithoutIf, mkCtx ['@', 'E', 'N', 'D', 'I', 'F']⟩) :=
  ⟨claim_C7.1 [] 1 ⟨[], some ⟨true, ['@', 'I', 'F', ' ', '1']⟩⟩ ['@', 'I', 'F', ' ', '0']
      ['0'] 4 ⟨true, ['@', 'I', 'F', ' ', '1']⟩ rfl rfl,
    claim_C7.2 [] 1 ⟨[], none⟩ ['@', 'E', 'N', 'D', 'I', 'F'] [] 6 rfl rfl⟩

theorem parseInstr_open_ctxLine (base : List Char) (f : Nat) (st : PPState)
    (line : List Char) (r : StepResult) (hcb : st.condBlock = none)
    (hok : parseInstr base f st line = some (.ok r)) :
    ∀ cb2, r.state.condBlock = some cb2 → cb2.ctxLine = line := by
  intro cb2 hcb2
  unfold parseInstr at hok
  cases hm : matchConditional line with
  | some t =>
    obtain ⟨stmt, c, i⟩ := t
    rw [hm] at hok
    dsimp only at hok
    cases stmt with
    | endifStmt =>
      dsimp only at hok
      rw [hcb] at hok
      dsimp only at hok
      simp at hok
    | ifStmt =>
      dsimp only at hok
      rw [hcb] at hok
      dsimp only at hok
      cases hres : resolveVariablesF st.varstack f (pyStripWs c) with
      | none => rw [hres] at hok; simp at hok
      | some e =>
        cases e with
        | error er =>
          rw [hres] at hok
          simp at hok
        | ok cond2 =>
          rw [hres] at hok
          dsimp only at hok
          simp only [Option.some.injEq, Except.ok.injEq] at hok
          rw [← hok] at hcb2
          simp only [StepResult.state] at hcb2
          cases hcb2
          rfl
  | none =>
    rw [hm] at hok
    dsimp only at hok
    rw [hcb] at hok
    dsimp only at hok
    unfold parseInstrRest at hok
    cases hms : matchSet line with
    | some vv =>
      obtain ⟨var, value0⟩ := vv
      rw [hms] at hok
      dsimp only at hok
      cases hres : resolveVariablesF st.varstack f value0 with
      | none => rw [hres] at hok; simp at hok
      | some e =>
        cases e with
        | error er =>
          rw [hres] at hok
          simp at hok
        | ok value =>
          rw [hres] at hok
          dsimp only at hok
          by_cases hv : validVarName var = true
          · rw [if_pos hv] at hok
            simp only [Option.some.injEq, Except.ok.injEq] at hok
            rw [← hok] at hcb2
            simp only [StepResult.state] at hcb2
            rw [hcb] at hcb2
            exact Option.noConfusion hcb2
          · rw [if_neg hv] at hok
            simp at hok
    | none =>
      rw [hms] at hok
      dsimp only at hok
      cases hmi : matchInclude line with
      | some q =>
        obtain ⟨file0, fileStart, compStart, compEnd⟩ := q
        rw [hmi] at hok
        dsimp only at hok
        cases hres : resolveVariablesF st.varstack f file0 with
        | none => rw [hres] at hok; simp at hok
        | some e =>
          cases e with
          | error er =>
            rw [hres] at hok
            simp at hok
          | ok fname =>
            rw [hres] at hok
            dsimp only at hok
            split at hok
            · simp at hok
            · split at hok
              · simp at hok
              · simp only [Option.some.injEq, Except.ok.injEq] at hok
                rw [← hok] at hcb2
                simp only [StepResult.state] at hcb2
                rw [hcb] at hcb2
                exact Option.noConfusion hcb2
      | none =>
        rw [hmi] at hok
        simp at hok

/-- C9.  When the line stream ends while a conditional block is still open,
the run fails with the unclosed-block error whose reference line is the
block's stored opening context; a successful instruction step that leaves a
block open from a state with none open always stores the processed `@IF`
line as that context; and concretely, a stream opening a false block and
never closing it (no `@IF`/`@ENDIF` in the remaining lines) ends in the
unclosed-block error referencing the opening line. -/
theorem claim_C9 :
    (∀ (fs : FileSys) (base : List Char) (f : Nat) (st : PPState) (cb : CondBlock),
      st.condBlock = some cb →
      ppRunF fs base f st [] =
        some (.error ⟨.unclosedBlock, ⟨[], none, none, some cb.ctxLine⟩⟩))
  ∧ (∀ (base : List Char) (f : Nat) (st : PPState) (line : List Char) (r : StepResult),
      st.condBlock = none → parseInstr base f st line = some (.ok r) →
      ∀ cb2, r.state.condBlock = some cb2 → cb2.ctxLine = line)
  ∧ (∀ (fs : FileSys) (base : List Char) (f : Nat) (st : PPState) (ctxL : List Char)
      (body : List (List Char)),
      st.condBlock = some ⟨false, ctxL⟩ →
      (∀ l ∈ body, matchConditional l = none) →
      ppRunF fs base (body.length + 1 + f) st [body] =
        some (.error ⟨.unclosedBlock, ⟨[], none, none, some ctxL⟩⟩)) := by
  refine ⟨?_, ?_, ?_⟩
  · intro fs base f st cb hcb
    rw [ppRunF_nil, hcb]
  · intro base f st line r hcb hok
    exact parseInstr_open_ctxLine base f st line r hcb hok
  · intro fs base f st ctxL body
    induction body generalizing st with
    | nil =>
      intro hcb _
      simp only [List.length_nil]
      rw [show 0 + 1 + f = f + 1 by omega]
      rw [ppRunF_pop, ppRunF_nil, hcb]
    | cons l ls ih =>
      intro hcb hall
      simp only [List.length_cons]
      rw [show ls.length + 1 + 1 + f = (ls.length + 1 + f) + 1 by omega]
      rw [ppRunF_cons]
      rw [ppStep_skip_false base ((ls.length + 1 + f) + 1) st l ⟨false, ctxL⟩ hcb rfl
        (hall l (List.mem_cons_self _ _))]
      dsimp only
      exact ih st hcb (fun q hq => hall q (List.mem_cons_of_mem l hq))

/-- C9 witness: `@IF 0` followed by one plain line and end of input errors
with the `@IF 0` line referenced. -/
theorem claim_C9_witness :
    ppRunF [] [] 3 ⟨[], some ⟨false, ['@', 'I', 'F', ' ', '0']⟩⟩ [[['x']]] =
      some (.error ⟨.unclosedBlock, ⟨[], none, none, some ['@', 'I', 'F', ' ', '0']⟩⟩) :=
  claim_C9.2.2 [] [] 1 ⟨[], some ⟨false, ['@', 'I', 'F', ' ', '0']⟩⟩ ['@', 'I', 'F', ' ', '0']
    [['x']] rfl (fun l hl => by
      rcases List.mem_singleton.mp hl with rfl
      rfl)

theorem matchConditional_include (rest : List Char) :
    matchConditional ('@' :: 'I' :: 'N' :: 'C' :: 'L' :: 'U' :: 'D' :: 'E' :: rest) = none := rfl

theorem matchSet_include (rest : List Char) :
    matchSet ('@' :: 'I' :: 'N' :: 'C' :: 'L' :: 'U' :: 'D' :: 'E' :: rest) = none := rfl

theorem matchInclude_shape (fn : List Char)
    (h0 : ∀ c, fn.head? = some c → pyIsSpace c = false) :
    matchInclude ('@' :: 'I' :: 'N' :: 'C' :: 'L' :: 'U' :: 'D' :: 'E' :: ' ' :: fn) =
      some (fn, 9, 0,
        ('@' :: 'I' :: 'N' :: 'C' :: 'L' :: 'U' :: 'D' :: 'E' :: ' ' :: fn).length) := by
  cases fn with
  | nil => rfl
  | cons c cs =>
    have hc := h0 c rfl
    unfold matchInclude
    rw [takeWhile_cons_false pyIsSpace '@' _ (by decide)]
    simp only [List.length_nil, List.drop_zero]
    rw [show leadsWithUpper ['I', 'N', 'C', 'L', 'U', 'D', 'E']
        ('I' :: 'N' :: 'C' :: 'L' :: 'U' :: 'D' :: 'E' :: ' ' :: c :: cs) = true from rfl,
      if_pos rfl]
    rw [show List.drop 7 ('I' :: 'N' :: 'C' :: 'L' :: 'U' :: 'D' :: 'E' :: ' ' :: c :: cs)
        = ' ' :: c :: cs from rfl]
    dsimp only
    rw [if_pos (by decide)]
    rw [takeWhile_cons_true pyIsSpace ' ' _ (by decide),
      takeWhile_cons_false pyIsSpace c _ hc]
    rfl

theorem ppStep_include (base : List Char) (f : Nat) (vs : VarStack) (fn : List Char)
    (hfn : fn ≠ [])
    (hfh : ∀ c, fn.head? = some c →
      pyIsSpace c = false ∧ c ≠ '\x27' ∧ c ≠ '"' ∧ c ≠ '/')
    (hfd : '$' ∉ fn) (hsq : pyStripQuotes fn = fn) :
    ppStep base (f + 1) ⟨vs, none⟩
        ('@' :: 'I' :: 'N' :: 'C' :: 'L' :: 'U' :: 'D' :: 'E' :: ' ' :: fn) =
      some (.ok (.include ⟨vs, none⟩ (base ++ '/' :: fn))) := by
  obtain ⟨c, cs, rfl⟩ : ∃ c cs, fn = c :: cs := by
    cases fn with
    | nil => exact absurd rfl hfn
    | cons a b => exact ⟨a, b, rfl⟩
  obtain ⟨hcs, hq1, hq2, hslash⟩ := hfh c rfl
  rw [ppStep_directive]
  unfold parseInstr
  rw [matchConditional_include]
  dsimp only
  unfold parseInstrRest
  rw [matchSet_include]
  dsimp only
  rw [matchInclude_shape (c :: cs) (fun d hd => by
    have : c = d := by simpa using hd
    exact this ▸ hcs)]
  dsimp only
  rw [resolveVariablesF_noDollar vs f (c :: cs) hfd]
  dsimp only
  rw [show (c == '\x27' || c == '"') = false by simp [hq1, hq2]]
  rw [if_neg (by simp)]
  dsimp only
  rw [if_neg (by simp)]
  unfold pyJoinPath
  rw [hsq]
  rw [show leadsWith ['/'] (c :: cs) = false by
    simp [leadsWith]
    intro h
    exact absurd h.symm hslash]
  rw [if_neg (by simp)]

theorem prependEmitted_nil (r : Option (Except PErr (List (List Char)))) :
    prependEmitted [] r = r := by
  cases r with
  | none => rfl
  | some e =>
    cases e with
    | error er => rfl
    | ok out => simp [prependEmitted]

theorem ppRunF_drain_plain (fs : FileSys) (base : List Char) :
    ∀ (body : List (List Char)) (f : Nat) (st : PPState) (stk : List (List (List Char))),
      st.condBlock = none →
      (∀ l ∈ body, l ≠ [] ∧ (∀ c, l.head? = some c → c ≠ '@' ∧ c ≠ '!' ∧ c ≠ '#') ∧ '$' ∉ l) →
      ppRunF fs base (body.length + 1 + f) st (body :: stk) =
        prependEmitted body (ppRunF fs base f st stk) := by
  intro body
  induction body with
  | nil =>
    intro f st stk hcb _
    simp only [List.length_nil]
    rw [show 0 + 1 + f = f + 1 by omega]
    rw [ppRunF_pop, prependEmitted_nil]
  | cons l ls ih =>
    intro f st stk hcb hplain
    obtain ⟨hne, hhead, hnd⟩ := hplain l (List.mem_cons_self _ _)
    simp only [List.length_cons]
    rw [show ls.length + 1 + 1 + f = (ls.length + 1 + f) + 1 by omega]
    rw [ppRunF_cons]
    have hres : resolveVariablesF st.varstack ((ls.length + 1 + f) + 1) l = some (.ok l) :=
      resolveVariablesF_noDollar st.varstack (ls.length + 1 + f) l hnd
    rw [ppStep_emit_of_resolve base ((ls.length + 1 + f) + 1) st l l hcb hne hhead hres]
    dsimp only
    rw [ih f st stk hcb (fun q hq => hplain q (List.mem_cons_of_mem l hq))]
    cases hR : ppRunF fs base f st stk with
    | none => rfl
    | some e =>
      cases e with
      | error er => rfl
      | ok out => simp [prependEmitted]

/-- C8.  An `@INCLUDE` whose variable-resolved, unquoted filename is a
relative path opens exactly the file at that path joined under the
configured base directory, pushes its stream on the line source, and all of
its lines are emitted before any remaining line of the including file is
processed (the run equals the included body prepended to the run of the
includer's remaining lines). -/
theorem claim_C8 (fs : FileSys) (base : List Char) (f : Nat) (vs : VarStack)
    (fn : List Char) (rest : List (List Char)) (lower : List (List (List Char)))
    (body : List (List Char)) (hfn : fn ≠ [])
    (hfh : ∀ c, fn.head? = some c →
      pyIsSpace c = false ∧ c ≠ '\x27' ∧ c ≠ '"' ∧ c ≠ '/')
    (hfd : '$' ∉ fn) (hsq : pyStripQuotes fn = fn)
    (hbody : fsLookup fs (base ++ '/' :: fn) = some body)
    (hplain : ∀ l ∈ body,
      l ≠ [] ∧ (∀ c, l.head? = some c → c ≠ '@' ∧ c ≠ '!' ∧ c ≠ '#') ∧ '$' ∉ l) :
    ppRunF fs base ((body.length + 1 + f) + 1) ⟨vs, none⟩
        ((('@' :: 'I' :: 'N' :: 'C' :: 'L' :: 'U' :: 'D' :: 'E' :: ' ' :: fn) :: rest)
          :: lower) =
      prependEmitted body (ppRunF fs base f ⟨vs, none⟩ (rest :: lower)) := by
  rw [ppRunF_cons]
  rw [ppStep_include base (body.length + 1 + f) vs fn hfn hfh hfd hsq]
  dsimp only
  rw [hbody]
  exact ppRunF_drain_plain fs base body f ⟨vs, none⟩ (rest :: lower) rfl hplain

/-- C8 witness: `@INCLUDE s` with base `/b` opens `/b/s`, whose single line
`p` is emitted before the includer (which has no further lines) resumes. -/
theorem claim_C8_witness :
    ppRunF [(['/', 'b', '/', 's'], [['p']])] ['/', 'b'] 4 ⟨[], none⟩
        [[['@', 'I', 'N', 'C', 'L', 'U', 'D', 'E', ' ', 's']]] =
      some (.ok [['p']]) :=
  (claim_C8 [(['/', 'b', '/', 's'], [['p']])] ['/', 'b'] 1 [] ['s'] [] [] [['p']]
    (by decide)
    (fun c hc => by cases hc; exact ⟨by decide, by decide, by decide, by decide⟩)
    (by decide) (by decide) rfl
    (fun l hl => by
      rcases List.mem_singleton.mp hl with rfl
      exact ⟨by decide, fun c hc => by cases hc; exact ⟨by decide, by decide, by decide⟩,
        by decide⟩)).trans rfl


/-- C1, evaluated at the failing input.  A second occurrence of the
non-repeatable section `NR` does not raise the intended repetition error:
parser.py line 116 evaluates the undefined name `section_token`, a Python
`NameError`.  A second occurrence of a non-repeatable keyword does raise the
repetition error, and repeated occurrences of repeatable keywords and
sections are promoted to an ordered list preserving first-seen-then-appended
order. -/
theorem claim_C1 :
    parseLines initRoot [['&', 'N', 'R'], ['&', 'E', 'N', 'D'], ['&', 'N', 'R']] =
      .error (.pythonNameError "section_token")
  ∧ parseLines initRoot [['K', ' ', '1'], ['K', ' ', '2']] =
      .error (.nameRepetition ['K'])
  ∧ (parseLines initRoot
        [['R', 'K', ' ', '1'], ['R', 'K', ' ', '2'], ['R', 'K', ' ', '3']]).map
      (fun st => st.tree) =
      .ok (.mapping [(['R', 'K'],
        .rlist [.scalar ['1'], .scalar ['2'], .scalar ['3']])])
  ∧ (parseLines initRoot [['&', 'R', 'P'], ['&', 'E', 'N', 'D'], ['&', 'R', 'P'],
        ['&', 'E', 'N', 'D'], ['&', 'R', 'P']]).map (fun st => st.tree) =
      .ok (.mapping [(['+', 'R', 'P'],
        .rlist [.mapping [], .mapping [], .mapping []])]) :=
  ⟨rfl, rfl, rfl, rfl⟩

/-- C5 counterexample: from the initial state (stack depth 1), the line
`&END` succeeds and pops the root frame from both stacks, leaving depth 0 —
the root frame is not protected. -/
theorem claim_C5_counterexample :
    parseLine initRoot ['&', 'E', 'N', 'D'] = .ok ⟨[], .mapping [], []⟩
    ∧ initRoot.nodes.length = 1 :=
  ⟨rfl, rfl⟩
theorem parseAsKeyword_stacks (st : PState) (line : List Char) (st2 : PState)
    (hok : parseAsKeyword st line = .ok st2) :
    st2.nodes = st.nodes ∧ st2.refs = st.refs := by
  unfold parseAsKeyword at hok
  cases hkm : keywordMatch line with
  | none => rw [hkm] at hok; simp at hok
  | some nv =>
    obtain ⟨name0, value0⟩ := nv
    rw [hkm] at hok
    dsimp only at hok
    cases hns : st.nodes with
    | nil => rw [hns] at hok; simp at hok
    | cons top restN =>
      rw [hns] at hok
      dsimp only at hok
      cases hfk : findKeywordNode top.keywords (upperL name0) with
      | some n =>
        rw [hfk] at hok
        dsimp only at hok
        repeat' split at hok
        all_goals first
          | exact Except.noConfusion hok
          | (injection hok with h; subst h; exact ⟨by simp_all, by simp_all⟩)
      | none =>
        rw [hfk] at hok
        dsimp only at hok
        cases hdk : top.defaultKw with
        | none => rw [hdk] at hok; simp at hok
        | some dn =>
          rw [hdk] at hok
          dsimp only at hok
          repeat' split at hok
          all_goals first
            | exact Except.noConfusion hok
            | (injection hok with h; subst h; exact ⟨by simp_all, by simp_all⟩)

/-- C5 as amended: across every successful tree-parser step the schema-node
stack and the tree-position stack keep equal length; a section entry pushes
one frame onto both, an `&END` pops one frame from both, and a keyword line
changes neither.  However the root frame is not protected: an `&END` at
depth 1 succeeds and pops both stacks to length 0 (see the counterexample),
so depth ≥ 1 is not an invariant. -/
theorem claim_C5 (st : PState) (line : List Char) (st2 : PState)
    (hlen : st.nodes.length = st.refs.length)
    (hok : parseLine st line = .ok st2) :
    st2.nodes.length = st2.refs.length
  ∧ (leadsWith ['&'] line = true → isEndLine line = true →
      st2.nodes.length + 1 = st.nodes.length ∧ st2.refs.length + 1 = st.refs.length)
  ∧ (leadsWith ['&'] line = true → isEndLine line = false →
      st2.nodes.length = st.nodes.length + 1 ∧ st2.refs.length = st.refs.length + 1)
  ∧ (leadsWith ['&'] line = false → st2.nodes = st.nodes ∧ st2.refs = st.refs) := by
  unfold parseLine at hok
  by_cases hamp : leadsWith ['&'] line = true
  · rw [if_pos hamp] at hok
    unfold parseAsSection at hok
    cases hsm : sectionMatch line with
    | none => rw [hsm] at hok; exact Except.noConfusion hok
    | some np =>
      obtain ⟨name0, param0⟩ := np
      rw [hsm] at hok
      dsimp only at hok
      have hendeq : isEndLine line = (upperL name0 == ['E', 'N', 'D']) := by
        unfold isEndLine
        rw [hsm]
      by_cases he : upperL name0 = ['E', 'N', 'D']
      · rw [if_pos he] at hok
        have hend : isEndLine line = true := by
          rw [hendeq]
          simp [he]
        repeat' split at hok
        all_goals try exact Except.noConfusion hok
        all_goals
          injection hok with h
          subst h
          exact ⟨by simp_all,
            fun _ _ => ⟨by simp_all, by simp_all⟩,
            fun _ hf => absurd hf (by simp [hend]),
            fun hf => absurd hamp (by simp [hf])⟩
      · rw [if_neg he] at hok
        have hend : isEndLine line = false := by
          rw [hendeq]
          simp [he]
        repeat' split at hok
        all_goals try exact Except.noConfusion hok
        all_goals
          injection hok with h
          subst h
          exact ⟨by simp_all,
            fun _ hf => absurd hf (by simp [hend]),
            fun _ _ => ⟨by simp_all, by simp_all⟩,
            fun hf => absurd hamp (by simp [hf])⟩
  · rw [if_neg hamp] at hok
    have hs := parseAsKeyword_stacks st line st2 hok
    exact ⟨by rw [hs.1, hs.2]; exact hlen,
      fun ht _ => absurd ht hamp, fun ht _ => absurd ht hamp, fun _ => hs⟩


/-- C5 witness for the amended claim: entering `&NR` from the initial state
keeps the stacks equal and pushes one frame onto both. -/
theorem claim_C5_witness :
    c5WitState.nodes.length = c5WitState.refs.length
    ∧ c5WitState.nodes.length = initRoot.nodes.length + 1
    ∧ c5WitState.refs.length = initRoot.refs.length + 1 :=
  ⟨(claim_C5 initRoot ['&', 'N', 'R'] c5WitState rfl rfl).1,
    ((claim_C5 initRoot ['&', 'N', 'R'] c5WitState rfl rfl).2.2.1 rfl rfl).1,
    ((claim_C5 initRoot ['&', 'N', 'R'] c5WitState rfl rfl).2.2.1 rfl rfl).2⟩
